import Mathlib

/-
  Verification of the LRU response cache of the `llm-test` repository.

  The repository contains three successive implementations of the cache:
  * `src/index.js`        : count-bounded cache, `Map` + timestamp scan, values stored directly
                            (model `IX` below);
  * `src/lru-handler.js`  : dual-mode (count- or weight-bounded) cache, `Map` + timestamp scan
                            (model `TS` below);
  * `unnamed/part_002`    : dual-mode cache with an O(1) doubly-linked recency list
                            (model `DL` below, with an explicit node heap so that the
                            pointer manipulation of the source is reproduced exactly).

  JavaScript `Map` objects are modelled by association lists with the exact `get` / `set` /
  `delete` semantics (`set` on a present key updates in place, otherwise appends).
  `Date.now()` is modelled by a per-cache logical clock that strictly increases at every
  call, which is the sanctioned idealisation of real timestamps (ties are impossible).
  JavaScript truthiness tests on keys (`if (oldestKey)`) are modelled faithfully:
  the empty string is falsy.
-/

namespace LruVerify

/-! ## Association-list model of JavaScript `Map` -/
/-- `Map.prototype.get`: value of the first (and, for real maps, only) binding of `k`. -/
def mget {κ α : Type} [DecidableEq κ] : List (κ × α) → κ → Option α
  | [], _ => none
  | (k', v) :: rest, k => if k' = k then some v else mget rest k

/-- `Map.prototype.has`. -/
def mhas {κ α : Type} [DecidableEq κ] (l : List (κ × α)) (k : κ) : Bool :=
  (mget l k).isSome

/-- `Map.prototype.set`: update in place if present, else append at the end
(JavaScript maps preserve insertion order). -/
def mset {κ α : Type} [DecidableEq κ] : List (κ × α) → κ → α → List (κ × α)
  | [], k, v => [(k, v)]
  | (k', v') :: rest, k, v =>
    if k' = k then (k', v) :: rest else (k', v') :: mset rest k v

/-- `Map.prototype.delete`: remove the binding of `k`, if any. -/
def mdel {κ α : Type} [DecidableEq κ] : List (κ × α) → κ → List (κ × α)
  | [], _ => []
  | (k', v') :: rest, k =>
    if k' = k then rest else (k', v') :: mdel rest k

/-! ## Key derivation (`LRUCache.generateKey`) -/
/-- One conversation turn, as consumed by `generateKey`. -/
structure Msg where
  role : String
  content : String
deriving DecidableEq

/-- The contribution of one turn to the key. The source interpolates
`msg.role : msg.content` with a template string. -/
def fmtMsg (m : Msg) : String := m.role ++ ":" ++ m.content

/-- `Array.prototype.join` with separator `|`, as used on `keyParts`. -/
def joinBar : List String → String
  | [] => ""
  | [s] => s
  | s :: rest => s ++ "|" ++ joinBar rest

/-- `generateKey` of `src/lru-handler.js` (and, identically, of `src/index.js`):
`messages.slice(Math.max(0, messages.length - 3))` is `drop (length - 3)` with
truncated subtraction, then each kept message is formatted and the parts joined. -/
def generateKey (msgs : List Msg) : String :=
  joinBar ((msgs.drop (msgs.length - 3)).map fmtMsg)

/-- `generateKey` of `unnamed/part_002`: an early return for the empty message list,
then an index loop from `startIndex = Math.max(0, len - 3)` to `len` that pushes the
formatted messages (that slice is `drop (len - 3)`), then the same join. -/
def generateKeyDL (msgs : List Msg) : String :=
  if msgs.length = 0 then ""
  else joinBar ((msgs.drop (msgs.length - 3)).map fmtMsg)

/-! ## Cache operations -/
/-- A public cache operation. `has` is omitted because it is observably pure in all
three implementations. -/
inductive Op (α : Type) where
  | set (k : String) (v : α)
  | get (k : String)
  | clear

/-- Construction-time configuration, mirroring the constructor fields of the two
dual-mode implementations. In weighted mode `maxSize` is `Infinity` and never read;
in count mode `maxWeight` is `Infinity` and `calculateItemWeight` is `null`, and
neither is ever read. Accordingly only the fields of the active mode are meaningful. -/
structure Config (α : Type) where
  isWeightedMode : Bool
  maxWeight : Int
  maxSize : Nat
  calculateItemWeight : α → Int

/-! ## `TS`: the timestamp-scan cache of `src/lru-handler.js` -/
/-- A stored entry: `{ value, weight }`. -/
structure TSEntry (α : Type) where
  value : α
  weight : Int
deriving DecidableEq

/-- State of the `lru-handler.js` cache. `clock` models `Date.now()` as a strictly
increasing logical time. -/
structure TS (α : Type) where
  cache : List (String × TSEntry α)
  times : List (String × Nat)
  currentWeight : Int
  clock : Nat
deriving DecidableEq

def TS.init {α : Type} : TS α := ⟨[], [], 0, 0⟩

def TS.has {α : Type} (st : TS α) (k : String) : Bool := mhas st.cache k

/-- `get`: absent keys return `null` and leave the state untouched; present keys get a
fresh timestamp (in place in `keyTimestamps`) and their value is returned. -/
def TS.get {α : Type} (st : TS α) (k : String) : Option α × TS α :=
  if st.has k then
    let st' : TS α :=
      { st with times := mset st.times k st.clock, clock := st.clock + 1 }
    match mget st.cache k with
    | some e => (some e.value, st')
    | none => (none, st')
  else (none, st)

/-- `getOldestKey`'s scan over `keyTimestamps.entries()`: keep the entry with the
strictly smallest timestamp, earlier entries winning ties (`timestamp < oldestTime`).
The accumulator starts as `none`, standing for `oldestKey = null, oldestTime = Infinity`. -/
def scanOldest : Option (String × Nat) → List (String × Nat) → Option (String × Nat)
  | best, [] => best
  | none, (k, t) :: rest => scanOldest (some (k, t)) rest
  | some (bk, bt), (k, t) :: rest =>
    if t < bt then scanOldest (some (k, t)) rest else scanOldest (some (bk, bt)) rest

def TS.getOldestKey {α : Type} (st : TS α) : Option String :=
  (scanOldest none st.times).map Prod.fst

/-- `evictOneLRU`. Note the faithful modelling of `if (oldestKey)`: the empty string
is falsy in JavaScript, so an oldest key `""` makes eviction fail and return `false`
exactly as `null` does. -/
def TS.evictOneLRU {α : Type} (weighted : Bool) (st : TS α) : Bool × TS α :=
  match st.getOldestKey with
  | some k =>
    if k ≠ "" then
      let entry := mget st.cache k
      let st1 : TS α := { st with cache := mdel st.cache k, times := mdel st.times k }
      match entry with
      | some e =>
        (true, if weighted then { st1 with currentWeight := st1.currentWeight - e.weight } else st1)
      | none => (true, st1)
    else (false, st)
  | none => (false, st)

/-- The weighted-mode eviction loop
`while (cache.size > 0 && currentWeight + itemWeight > maxWeight) if (!evictOneLRU()) break`.
Each successful `evictOneLRU` removes a key of `keyTimestamps`, so the loop performs at
most `times.length` successful iterations followed by at most one failing one; running
it with fuel `times.length + 1` is therefore exactly the source loop. -/
def TS.evictLoop {α : Type} (mw iw : Int) : Nat → TS α → TS α
  | 0, st => st
  | fuel + 1, st =>
    if 0 < st.cache.length ∧ mw < st.currentWeight + iw then
      match st.evictOneLRU true with
      | (true, st') => TS.evictLoop mw iw fuel st'
      | (false, st') => st'
    else st

/-- `set` of `src/lru-handler.js`. -/
def TS.set {α : Type} (cfg : Config α) (st : TS α) (k : String) (v : α) : TS α :=
  let itemWeight : Int := if cfg.isWeightedMode then cfg.calculateItemWeight v else 0
  if cfg.isWeightedMode ∧ cfg.maxWeight < itemWeight then
    -- item alone exceeds the whole capacity: refuse it, removing a stale same-keyed entry
    match mget st.cache k with
    | some old =>
      { st with currentWeight := st.currentWeight - old.weight,
                cache := mdel st.cache k, times := mdel st.times k }
    | none => st
  else
    -- if the key already exists, remove its old entry first
    let st1 : TS α :=
      match mget st.cache k with
      | some old =>
        { st with
          currentWeight :=
            if cfg.isWeightedMode then st.currentWeight - old.weight else st.currentWeight,
          cache := mdel st.cache k, times := mdel st.times k }
      | none => st
    if cfg.isWeightedMode then
      let st2 := TS.evictLoop cfg.maxWeight itemWeight (st1.times.length + 1) st1
      if st2.currentWeight + itemWeight ≤ cfg.maxWeight then
        { st2 with cache := mset st2.cache k ⟨v, itemWeight⟩,
                   times := mset st2.times k st2.clock,
                   currentWeight := st2.currentWeight + itemWeight,
                   clock := st2.clock + 1 }
      else st2
    else
      let st2 := if cfg.maxSize ≤ st1.cache.length then (st1.evictOneLRU false).2 else st1
      { st2 with cache := mset st2.cache k ⟨v, 0⟩,
                 times := mset st2.times k st2.clock,
                 clock := st2.clock + 1 }

/-- `clear`. -/
def TS.clear {α : Type} (st : TS α) : TS α := { st with cache := [], times := [], currentWeight := 0 }

def TS.apply {α : Type} (cfg : Config α) (st : TS α) : Op α → TS α
  | .set k v => st.set cfg k v
  | .get k => (st.get k).2
  | .clear => st.clear

def TS.run {α : Type} (cfg : Config α) (st : TS α) (ops : List (Op α)) : TS α :=
  ops.foldl (TS.apply cfg) st

/-- Sum of the weights of the resident entries. -/
def TS.weightSum {α : Type} (st : TS α) : Int :=
  (st.cache.map (fun p => p.2.weight)).sum

/-! ## `IX`: the count-bounded cache of `src/index.js` -/
/-- State of the `index.js` cache: values are stored directly, no weights. -/
structure IX (α : Type) where
  cache : List (String × α)
  times : List (String × Nat)
  clock : Nat
deriving DecidableEq

def IX.init {α : Type} : IX α := ⟨[], [], 0⟩

def IX.has {α : Type} (st : IX α) (k : String) : Bool := mhas st.cache k

def IX.get {α : Type} (st : IX α) (k : String) : Option α × IX α :=
  if st.has k then
    (mget st.cache k, { st with times := mset st.times k st.clock, clock := st.clock + 1 })
  else (none, st)

/-- `evictLRU` of `index.js`: early return on an empty cache, timestamp scan, then
`if (oldestKey) delete` — again the empty-string key is falsy and escapes eviction. -/
def IX.evictLRU {α : Type} (st : IX α) : IX α :=
  if st.cache.length = 0 then st
  else
    match scanOldest none st.times with
    | some (k, _) =>
      if k ≠ "" then { st with cache := mdel st.cache k, times := mdel st.times k } else st
    | none => st

/-- `set` of `index.js`: evict when at capacity, then insert. There is no special
case for a key that is already resident. -/
def IX.set {α : Type} (maxSize : Nat) (st : IX α) (k : String) (v : α) : IX α :=
  let st1 := if maxSize ≤ st.cache.length then st.evictLRU else st
  { st1 with cache := mset st1.cache k v, times := mset st1.times k st1.clock,
             clock := st1.clock + 1 }

def IX.clear {α : Type} (st : IX α) : IX α := { st with cache := [], times := [] }

def IX.apply {α : Type} (maxSize : Nat) (st : IX α) : Op α → IX α
  | .set k v => st.set maxSize k v
  | .get k => (st.get k).2
  | .clear => st.clear

def IX.run {α : Type} (maxSize : Nat) (st : IX α) (ops : List (Op α)) : IX α :=
  ops.foldl (IX.apply maxSize) st

/-! ## `DL`: the doubly-linked-list cache of `unnamed/part_002`

Nodes are mutable objects aliased by the key map, `head`/`tail`, and neighbour
pointers, so they are modelled by an explicit heap `nodes : List (Nat × DLNode α)`
addressed by identifiers; every property read and write of the source is a heap
read and write at the same program point. -/
/-- A list node `{ key, value, weight, next, prev }`. -/
structure DLNode (α : Type) where
  key : String
  value : α
  weight : Int
  next : Option Nat
  prev : Option Nat
deriving DecidableEq

/-- State of the `part_002` cache: `cache` maps keys to node identifiers, `nodes` is
the heap (unreachable nodes are simply never collected), `fresh` the next identifier. -/
structure DL (α : Type) where
  cache : List (String × Nat)
  nodes : List (Nat × DLNode α)
  head : Option Nat
  tail : Option Nat
  currentWeight : Int
  fresh : Nat
deriving DecidableEq

def DL.init {α : Type} : DL α := ⟨[], [], none, none, 0, 0⟩

def DL.node {α : Type} (st : DL α) (i : Nat) : Option (DLNode α) := mget st.nodes i

def DL.nodeNext {α : Type} (st : DL α) (i : Nat) : Option Nat :=
  match st.node i with
  | some n => n.next
  | none => none

def DL.nodePrev {α : Type} (st : DL α) (i : Nat) : Option Nat :=
  match st.node i with
  | some n => n.prev
  | none => none

def DL.nodeKey {α : Type} (st : DL α) (i : Nat) : Option String :=
  match st.node i with
  | some n => some n.key
  | none => none

def DL.nodeWeight {α : Type} (st : DL α) (i : Nat) : Int :=
  match st.node i with
  | some n => n.weight
  | none => 0

def DL.setNext {α : Type} (st : DL α) (i : Nat) (x : Option Nat) : DL α :=
  match mget st.nodes i with
  | some n => { st with nodes := mset st.nodes i { n with next := x } }
  | none => st

def DL.setPrev {α : Type} (st : DL α) (i : Nat) (x : Option Nat) : DL α :=
  match mget st.nodes i with
  | some n => { st with nodes := mset st.nodes i { n with prev := x } }
  | none => st

def DL.has {α : Type} (st : DL α) (k : String) : Bool := mhas st.cache k

/-- `_moveToFront(node)`, transcribed statement by statement; every re-read of
`node.prev` / `node.next` after a heap write reads the updated heap. -/
def DL.moveToFront {α : Type} (st : DL α) (i : Nat) : DL α :=
  if st.head = some i then st
  else
    let st1 : DL α :=
      if st.tail = some i then
        -- this.tail = node.prev; if (this.tail) this.tail.next = null
        let stA : DL α := { st with tail := st.nodePrev i }
        match stA.tail with
        | some t => stA.setNext t none
        | none => stA
      else
        -- if (node.prev) node.prev.next = node.next
        let stA : DL α :=
          match st.nodePrev i with
          | some p => st.setNext p (st.nodeNext i)
          | none => st
        -- if (node.next) node.next.prev = node.prev
        match stA.nodeNext i with
        | some n => stA.setPrev n (stA.nodePrev i)
        | none => stA
    -- node.next = this.head; node.prev = null
    let st2 := st1.setNext i st1.head
    let st3 := st2.setPrev i none
    -- if (this.head) this.head.prev = node
    let st4 : DL α :=
      match st3.head with
      | some h => st3.setPrev h (some i)
      | none => st3
    -- this.head = node; if (!this.tail) this.tail = node
    let st5 : DL α := { st4 with head := some i }
    if st5.tail = none then { st5 with tail := some i } else st5

/-- `_addToFront(node)`. -/
def DL.addToFront {α : Type} (st : DL α) (i : Nat) : DL α :=
  let st1 := st.setNext i st.head
  let st2 := st1.setPrev i none
  let st3 : DL α :=
    match st2.head with
    | some h => st2.setPrev h (some i)
    | none => st2
  let st4 : DL α := { st3 with head := some i }
  if st4.tail = none then { st4 with tail := some i } else st4

/-- `_removeNode(node)`. In the middle branch the source dereferences `node.prev` and
`node.next` without a null guard; a missing neighbour is modelled as a skipped write
(the source would throw there, which is unreachable on list-shaped states). -/
def DL.removeNode {α : Type} (st : DL α) (i : Nat) : DL α :=
  if st.head = some i then
    let st1 : DL α := { st with head := st.nodeNext i }
    match st1.head with
    | some h => st1.setPrev h none
    | none => st1
  else if st.tail = some i then
    let st1 : DL α := { st with tail := st.nodePrev i }
    match st1.tail with
    | some t => st1.setNext t none
    | none => st1
  else
    let st1 : DL α :=
      match st.nodePrev i with
      | some p => st.setNext p (st.nodeNext i)
      | none => st
    match st1.nodeNext i with
    | some n => st1.setPrev n (st1.nodePrev i)
    | none => st1

/-- `get` of `part_002`: move the node to the front, return its value. -/
def DL.get {α : Type} (st : DL α) (k : String) : Option α × DL α :=
  match mget st.cache k with
  | none => (none, st)
  | some i =>
    let st' := st.moveToFront i
    (match st'.node i with
     | some n => some n.value
     | none => none, st')

/-- Body of the `_makeSpaceForWeight` batch-eviction loop
`while (this.tail && (currentWeight + requiredWeight > maxWeight))`. Each iteration
pops the tail; the heap can hold at most `nodes.length` distinct node identifiers,
so fuel `nodes.length + 1` covers every terminating run of the source loop. -/
def DL.makeSpaceLoop {α : Type} (mw w : Int) : Nat → DL α → DL α
  | 0, st => st
  | fuel + 1, st =>
    match st.tail with
    | none => st
    | some t =>
      if mw < st.currentWeight + w then
        -- const tailWeight = tailNode.weight || 0  (a weight of 0 is falsy and yields 0)
        let tailWeight := st.nodeWeight t
        let tailKey := st.nodeKey t
        -- this.tail = tailNode.prev; if (this.tail) this.tail.next = null else this.head = null
        let st1 : DL α := { st with tail := st.nodePrev t }
        let st2 : DL α :=
          match st1.tail with
          | some t' => st1.setNext t' none
          | none => { st1 with head := none }
        -- this.cache.delete(tailNode.key)
        let st3 : DL α :=
          match tailKey with
          | some k => { st2 with cache := mdel st2.cache k }
          | none => st2
        DL.makeSpaceLoop mw w fuel { st3 with currentWeight := st3.currentWeight - tailWeight }
      else st

/-- `_makeSpaceForWeight(requiredWeight)`: early return when there is already room. -/
def DL.makeSpaceForWeight {α : Type} (mw w : Int) (st : DL α) : DL α :=
  if st.currentWeight + w ≤ mw then st
  else DL.makeSpaceLoop mw w (st.nodes.length + 1) st

/-- `_evictLRU()`: pop the tail node (count mode, no weight bookkeeping). -/
def DL.evictLRU {α : Type} (st : DL α) : DL α :=
  match st.tail with
  | none => st
  | some t =>
    let tailKey := st.nodeKey t
    let st1 : DL α := { st with tail := st.nodePrev t }
    let st2 : DL α :=
      match st1.tail with
      | some t' => st1.setNext t' none
      | none => { st1 with head := none }
    match tailKey with
    | some k => { st2 with cache := mdel st2.cache k }
    | none => st2

/-- `_removeItem(key)`. `if (this.isWeightedMode && node.weight)`: a weight of `0` is
falsy, so nothing is subtracted for it (which subtracts `0` either way). -/
def DL.removeItem {α : Type} (weighted : Bool) (st : DL α) (k : String) : DL α :=
  match mget st.cache k with
  | none => st
  | some i =>
    let w := st.nodeWeight i
    let st1 : DL α :=
      if weighted ∧ ¬w = 0 then { st with currentWeight := st.currentWeight - w } else st
    let st2 := st1.removeNode i
    { st2 with cache := mdel st2.cache k }

/-- `set` of `part_002`. Note that the update-in-place branch returns without any
eviction check. -/
def DL.set {α : Type} (cfg : Config α) (st : DL α) (k : String) (v : α) : DL α :=
  let itemWeight : Int := if cfg.isWeightedMode then cfg.calculateItemWeight v else 0
  if cfg.isWeightedMode ∧ cfg.maxWeight < itemWeight then
    if st.has k then st.removeItem cfg.isWeightedMode k else st
  else
    match mget st.cache k with
    | some i =>
      -- update an existing entry in place and move it to the front
      let oldWeight := st.nodeWeight i
      let st1 : DL α :=
        match st.node i with
        | some n => { st with nodes := mset st.nodes i { n with value := v, weight := itemWeight } }
        | none => st
      let st2 : DL α :=
        if cfg.isWeightedMode then
          { st1 with currentWeight := st1.currentWeight - oldWeight + itemWeight }
        else st1
      st2.moveToFront i
    | none =>
      let st1 : DL α :=
        if cfg.isWeightedMode then DL.makeSpaceForWeight cfg.maxWeight itemWeight st
        else if cfg.maxSize ≤ st.cache.length then st.evictLRU else st
      let i := st1.fresh
      let st2 : DL α :=
        { st1 with nodes := mset st1.nodes i ⟨k, v, itemWeight, none, none⟩, fresh := i + 1 }
      let st3 : DL α := { st2 with cache := mset st2.cache k i }
      let st4 := st3.addToFront i
      if cfg.isWeightedMode then { st4 with currentWeight := st4.currentWeight + itemWeight }
      else st4

/-- `clear`: the key map and list pointers are reset; unreferenced nodes simply
become garbage. -/
def DL.clear {α : Type} (st : DL α) : DL α :=
  { st with cache := [], head := none, tail := none, currentWeight := 0 }

def DL.apply {α : Type} (cfg : Config α) (st : DL α) : Op α → DL α
  | .set k v => st.set cfg k v
  | .get k => (st.get k).2
  | .clear => st.clear

def DL.run {α : Type} (cfg : Config α) (st : DL α) (ops : List (Op α)) : DL α :=
  ops.foldl (DL.apply cfg) st

/-- Sum of the weights of the entries resident in the key map. -/
def DL.weightSum {α : Type} (st : DL α) : Int :=
  (st.cache.map (fun p => st.nodeWeight p.2)).sum

/-- The key-to-payload view of a `DL` state: what `has`/`get` can observe. -/
def DL.lookup {α : Type} (st : DL α) (k : String) : Option (α × Int) :=
  match mget st.cache k with
  | some i =>
    match st.node i with
    | some n => some (n.value, n.weight)
    | none => none
  | none => none

/-! ## Concrete instances

The repository instantiates the weighted cache with
`calculateItemWeight = value => value.length` for strings; `strLen` is that weight
function on string payloads. -/
def strLen : String → Int := fun s => (s.length : Int)

/-- A weight-bounded configuration over string payloads, as built by the
`memoryCache` constructor call (`maxWeight`, string-length weight function).
`maxSize` is `Infinity` in this mode and never read; it is represented by `0`. -/
def wcfg (mw : Int) : Config String := ⟨true, mw, 0, strLen⟩

/-- A count-bounded configuration (`maxSize` given, no weight function; `maxWeight`
is `Infinity` in this mode and never read, represented by `0`). -/
def ccfg (n : Nat) : Config String := ⟨false, 0, n, fun _ => 0⟩

/-! ## C7: injectivity of `generateKey` on the window -/
/-- The last-three-turns window that participates in the key. -/
def windowOf (ms : List Msg) : List Msg := ms.drop (ms.length - 3)

/-- Delimiter discipline under which the key is decodable: the role contains neither
`:` nor `|`, and the content contains no `|`. -/
def delimFreeMsg (m : Msg) : Prop :=
  ':' ∉ m.role.data ∧ '|' ∉ m.role.data ∧ '|' ∉ m.content.data

instance (m : Msg) : Decidable (delimFreeMsg m) := by
  unfold delimFreeMsg
  infer_instance

/-- Character-level form of `joinBar`. -/
def charJoin : List (List Char) → List Char
  | [] => []
  | [x] => x
  | x :: rest => x ++ '|' :: charJoin rest

/-! ## Linked-list shape predicates for the `DL` model

`chainFromB st prv cur l` says that starting at pointer `cur`, whose predecessor is
`prv`, the forward walk through the heap visits exactly the nodes `l` and ends at a
null pointer, with all `prev` pointers consistent. `Seg` is the partial version that
stops with an explicit continuation. The observable recency order of a cache state
`st` is the `order` with `chainFromB st none st.head order`. -/
def chainFromB {α : Type} (st : DL α) : Option Nat → Option Nat → List Nat → Bool
  | _, cur, [] => decide (cur = none)
  | prv, cur, i :: rest =>
    decide (cur = some i) && decide (st.nodePrev i = prv)
      && chainFromB st (some i) (st.nodeNext i) rest

def Seg {α : Type} (st : DL α) : Option Nat → Option Nat → List Nat → Option Nat → Option Nat → Prop
  | prv, cur, [], p, c => p = prv ∧ c = cur
  | prv, cur, i :: rest, p, c =>
    cur = some i ∧ st.nodePrev i = prv ∧ Seg st (some i) (st.nodeNext i) rest p c

/-- The C1 weight invariant, as a state predicate for the `TS` model: distinct keys
(a `Map` property), exact weight accounting, the capacity bound, and non-negative
stored weights. -/
def TS.WeightInv {α : Type} (mw : Int) (st : TS α) : Prop :=
  (st.cache.map Prod.fst).Nodup
    ∧ st.currentWeight = st.weightSum
    ∧ st.currentWeight ≤ mw
    ∧ ∀ p ∈ st.cache, 0 ≤ p.2.weight

/-! ## Theorems -/

theorem mget_eq_none_of_not_mem {κ α : Type} [DecidableEq κ] (l : List (κ × α)) (k : κ)
    (h : k ∉ l.map Prod.fst) : mget l k = none := by
  induction l with
  | nil => rfl
  | cons p rest ih =>
    obtain ⟨k₀, v₀⟩ := p
    simp only [List.map_cons, List.mem_cons] at h
    push_neg at h
    rw [mget, if_neg (fun hh : k₀ = k => h.1 hh.symm)]
    exact ih h.2

theorem mget_mdel_ne {κ α : Type} [DecidableEq κ] (l : List (κ × α)) (k k' : κ)
    (h : k' ≠ k) : mget (mdel l k) k' = mget l k' := by
  induction l with
  | nil => rfl
  | cons p rest ih =>
    obtain ⟨k₀, v₀⟩ := p
    by_cases hk : k₀ = k
    · subst hk
      simp [mdel, mget, Ne.symm h]
    · by_cases hk' : k₀ = k'
      · subst hk'
        simp [mdel, hk, mget]
      · simp [mdel, hk, mget, hk', ih]

theorem mget_mdel_self {κ α : Type} [DecidableEq κ] (l : List (κ × α)) (k : κ)
    (hnd : (l.map Prod.fst).Nodup) : mget (mdel l k) k = none := by
  induction l with
  | nil => rfl
  | cons p rest ih =>
    obtain ⟨k₀, v₀⟩ := p
    simp only [List.map_cons, List.nodup_cons] at hnd
    by_cases hk : k₀ = k
    · subst hk
      rw [mdel, if_pos rfl]
      exact mget_eq_none_of_not_mem rest k₀ hnd.1
    · rw [mdel, if_neg hk, mget, if_neg hk]
      exact ih hnd.2

theorem mget_mset_self {κ α : Type} [DecidableEq κ] (l : List (κ × α)) (k : κ) (v : α) :
    mget (mset l k v) k = some v := by
  induction l with
  | nil => simp [mset, mget]
  | cons p rest ih =>
    obtain ⟨k₀, v₀⟩ := p
    by_cases hk : k₀ = k
    · simp [mset, hk, mget]
    · simp [mset, hk, mget, ih]

theorem mget_mset_ne {κ α : Type} [DecidableEq κ] (l : List (κ × α)) (k k' : κ) (v : α)
    (h : k' ≠ k) : mget (mset l k v) k' = mget l k' := by
  induction l with
  | nil => simp [mset, mget, Ne.symm h]
  | cons p rest ih =>
    obtain ⟨k₀, v₀⟩ := p
    by_cases hk : k₀ = k
    · subst hk
      rw [mset, if_pos rfl, mget, mget, if_neg (fun hh : k₀ = k' => h hh.symm),
        if_neg (fun hh : k₀ = k' => h hh.symm)]
    · by_cases hk' : k₀ = k'
      · subst hk'
        rw [mset, if_neg hk, mget, if_pos rfl, mget, if_pos rfl]
      · rw [mset, if_neg hk, mget, if_neg hk', mget, if_neg hk']
        exact ih

/-! ## C1: the weight invariant -/
/-- C1. The claim states that for every weight-bounded cache and every sequence of
`set`/`get`/`clear` operations, `currentWeight` equals the sum of the resident
entries' weights and never exceeds `maxWeight`. The linked-list implementation
(`unnamed/part_002`) violates the bound: its update-in-place branch adjusts
`currentWeight` and returns without any eviction check, so with `maxWeight = 10` and
string-length weights the sequence `set "a" "12"; set "b" "1234567"; set "a" "1234"`
leaves both entries resident with total weight 11 and `currentWeight = 11 > 10`.
(The sum part of the invariant still holds at this state.) -/
theorem C1_part002_weight_bound_violated :
    let st : DL String := DL.run (wcfg 10) DL.init
      [.set "a" "12", .set "b" "1234567", .set "a" "1234"]
    st.currentWeight = 11 ∧ st.weightSum = 11 ∧ ¬st.currentWeight ≤ (wcfg 10).maxWeight
      ∧ st.has "a" = true ∧ st.has "b" = true := by
  decide

/-! ## C2: a properly-sized `set` is resident afterwards -/
/-- C2. The claim states that after `set(key, value)` with a not-oversized item,
`has(key)` is true and `get(key)` returns the value. In `src/lru-handler.js` the
eviction helper tests `if (oldestKey)`, and the empty-string key is falsy, so an
oldest key `""` makes every eviction fail: with `maxWeight = 5`, after
`set "" "12345"` the properly-sized (weight 1) `set "k" "1"` is silently dropped and
`has "k"` is false immediately after it returns. -/
theorem C2_lru_handler_insertion_dropped :
    let st : TS String := TS.run (wcfg 5) TS.init [.set "" "12345", .set "k" "1"]
    strLen "1" ≤ (wcfg 5).maxWeight ∧ st.has "k" = false ∧ (st.get "k").1 = none := by
  decide

/-! ## C4: the count-mode capacity invariant -/
/-- C4. The claim states that a count-bounded cache never holds more than `maxItems`
entries. In `src/lru-handler.js` (and identically `src/index.js`) the falsy
empty-string key defeats `evictOneLRU`, so with `maxSize = 1` the sequence
`set "" _; set "k" _` leaves two resident entries. -/
theorem C4_count_capacity_violated :
    let st : TS String := TS.run (ccfg 1) TS.init [.set "" "a", .set "k" "b"]
    st.cache.length = 2 ∧ st.has "" = true ∧ st.has "k" = true
      ∧ (ccfg 1).maxSize < st.cache.length := by
  decide

/-! ## C5: reading refreshes recency -/
/-- C5. With `maxItems = 2`, the sequence
`set "k1" "v1"; set "k2" "v2"; get "k1"; set "k3" "v3"` evicts `"k2"` — the
least-recently-touched entry, not the just-read `"k1"` — in both the timestamp-scan
implementation (`src/lru-handler.js`) and the linked-list implementation
(`unnamed/part_002`); `"k1"` still returns its stored value afterwards. -/
theorem C5_recency_refresh :
    let ops : List (Op String) := [.set "k1" "v1", .set "k2" "v2", .get "k1", .set "k3" "v3"]
    let t := TS.run (ccfg 2) TS.init ops
    let d := DL.run (ccfg 2) DL.init ops
    (t.has "k1" = true ∧ t.has "k3" = true ∧ t.has "k2" = false
        ∧ (t.get "k1").1 = some "v1")
      ∧ (d.has "k1" = true ∧ d.has "k3" = true ∧ d.has "k2" = false
        ∧ (d.get "k1").1 = some "v1") := by
  decide

/-! ## C8: updating an existing key occupies one slot -/
/-- C8. The claim states that a `set` on an already resident key never evicts another
entry in count mode when the resident count does not grow. The `src/index.js`
implementation has no update-in-place handling: at capacity it always evicts the
oldest entry first, so with `maxSize = 2` the update `set "k2" "w"` (with `"k1"` and
`"k2"` resident) evicts `"k1"` even though the resident count would not have grown. -/
theorem C8_index_js_update_evicts_other_entry :
    let st2 : IX String := IX.run 2 IX.init [.set "k1" "v1", .set "k2" "v2"]
    let st3 := st2.set 2 "k2" "w"
    st2.has "k1" = true ∧ st2.has "k2" = true ∧ st2.cache.length = 2
      ∧ st3.has "k1" = false ∧ mget st3.cache "k2" = some "w"
      ∧ st3.cache.length = 1 := by
  decide

/-! ## C9: observational equivalence of the two dual-mode implementations -/
/-- C9. The claim states that `src/lru-handler.js` and `unnamed/part_002` are
observationally equivalent for every configuration and operation sequence. They are
not: with `maxItems = 1`, after `set "" v1; set "k" v2` the timestamp implementation
still holds both keys (its eviction is defeated by the falsy empty-string key) while
the linked-list implementation correctly evicted `""`, so `has ""` differs. (In
weighted mode they also diverge on updates, see `C1_part002_weight_bound_violated`.) -/
theorem C9_implementations_not_equivalent :
    let ops : List (Op String) := [.set "" "v1", .set "k" "v2"]
    let t := TS.run (ccfg 1) TS.init ops
    let d := DL.run (ccfg 1) DL.init ops
    t.has "" = true ∧ d.has "" = false ∧ t.cache.length = 2 ∧ d.cache.length = 1 := by
  decide

/-! ## C10: `get` on an absent key is a pure miss -/
/-- C10. In all three implementations, `get` on a key that is not resident returns
the `null` sentinel and returns the state entirely unchanged: no entry, timestamp,
recency pointer or weight is touched. -/
theorem C10_get_absent_pure :
    (∀ (α : Type) (st : TS α) (k : String), st.has k = false → st.get k = (none, st))
      ∧ (∀ (α : Type) (st : DL α) (k : String), st.has k = false → st.get k = (none, st))
      ∧ (∀ (α : Type) (st : IX α) (k : String), st.has k = false → st.get k = (none, st)) := by
  refine ⟨?_, ?_, ?_⟩
  · intro α st k h
    simp [TS.get, h]
  · intro α st k h
    cases h' : mget st.cache k with
    | none => simp [DL.get, h']
    | some i => exact absurd h (by simp [DL.has, mhas, h'])
  · intro α st k h
    simp [IX.get, h]

/-- Witness for C10 at concrete inputs. -/
theorem C10_get_absent_pure_witness :
    TS.get (α := String) TS.init "k" = (none, TS.init)
      ∧ DL.get (α := String) DL.init "k" = (none, DL.init)
      ∧ IX.get (α := String) IX.init "k" = (none, IX.init) :=
  ⟨C10_get_absent_pure.1 String TS.init "k" (by decide),
   C10_get_absent_pure.2.1 String DL.init "k" (by decide),
   C10_get_absent_pure.2.2 String IX.init "k" (by decide)⟩

/-! ## C6: `generateKey` depends only on the last three turns -/
/-- C6. `generateKey` is a function of the last-three-turns window only (so it is
deterministic and earlier turns have no effect), the empty turn sequence yields the
empty string without failing, and the loop-based variant of `unnamed/part_002`
computes exactly the same key as the slice-based variant of `src/lru-handler.js`
(whose definition is literally the claimed "role:content parts joined by a bar"). -/
theorem C6_generateKey_last_three :
    (∀ ms₁ ms₂ : List Msg, ms₁.drop (ms₁.length - 3) = ms₂.drop (ms₂.length - 3) →
        generateKey ms₁ = generateKey ms₂)
      ∧ generateKey [] = ""
      ∧ (∀ ms : List Msg, generateKeyDL ms = generateKey ms) := by
  refine ⟨?_, rfl, ?_⟩
  · intro ms₁ ms₂ h
    unfold generateKey
    rw [h]
  · intro ms
    cases ms with
    | nil => rfl
    | cons m rest => simp [generateKeyDL, generateKey]

/-- Witness for C6: a fourth-from-last turn does not change the key. -/
theorem C6_generateKey_last_three_witness :
    generateKey [⟨"system", "s"⟩, ⟨"user", "a"⟩, ⟨"assistant", "b"⟩, ⟨"user", "c"⟩]
      = generateKey [⟨"user", "a"⟩, ⟨"assistant", "b"⟩, ⟨"user", "c"⟩] :=
  C6_generateKey_last_three.1 _ _ (by decide)

/-- C7 is false as stated: the separators `:` and `|` may occur inside roles and
contents, so different windows can collide. Here `[("a", "b:c")]` and
`[("a:b", "c")]` both derive the key `"a:b:c"`. -/
theorem C7_counterexample :
    generateKey [⟨"a", "b:c"⟩] = generateKey [⟨"a:b", "c"⟩]
      ∧ windowOf [⟨"a", "b:c"⟩] ≠ windowOf [⟨"a:b", "c"⟩] := by
  decide

theorem str_ext {s t : String} (h : s.data = t.data) : s = t := by
  cases s
  cases t
  exact congrArg String.mk h

theorem joinBar_data : ∀ l : List String, (joinBar l).data = charJoin (l.map String.data)
  | [] => rfl
  | [s] => rfl
  | s :: t :: rest => by
    have ih := joinBar_data (t :: rest)
    simp only [joinBar, charJoin, List.map_cons]
    rw [String.data_append, String.data_append, ih]
    simp [charJoin]

theorem fmtMsg_data (m : Msg) : (fmtMsg m).data = m.role.data ++ ':' :: m.content.data := by
  unfold fmtMsg
  rw [String.data_append, String.data_append]
  simp

/-- Splitting at the first occurrence of a separator is unambiguous. -/
theorem noSep_split (c : Char) :
    ∀ x₁ x₂ t₁ t₂ : List Char, c ∉ x₁ → c ∉ x₂ →
      x₁ ++ c :: t₁ = x₂ ++ c :: t₂ → x₁ = x₂ ∧ t₁ = t₂ := by
  intro x₁
  induction x₁ with
  | nil =>
    intro x₂ t₁ t₂ _ h2 heq
    cases x₂ with
    | nil => simpa using heq
    | cons b x₂' =>
      simp only [List.nil_append, List.cons_append, List.cons.injEq] at heq
      exact absurd (heq.1 ▸ List.mem_cons_self b x₂') h2
  | cons a x₁' ih =>
    intro x₂ t₁ t₂ h1 h2 heq
    cases x₂ with
    | nil =>
      simp only [List.cons_append, List.nil_append, List.cons.injEq] at heq
      exact absurd (heq.1.symm ▸ List.mem_cons_self a x₁') h1
    | cons b x₂' =>
      simp only [List.cons_append, List.cons.injEq] at heq
      obtain ⟨hab, htail⟩ := heq
      have h1' : c ∉ x₁' := fun hm => h1 (List.mem_cons_of_mem a hm)
      have h2' : c ∉ x₂' := fun hm => h2 (List.mem_cons_of_mem b hm)
      obtain ⟨hx, ht⟩ := ih x₂' t₁ t₂ h1' h2' htail
      exact ⟨by rw [hab, hx], ht⟩

/-- `charJoin` is injective on lists of nonempty, bar-free parts. -/
theorem charJoin_inj :
    ∀ l₁ l₂ : List (List Char),
      (∀ x ∈ l₁, '|' ∉ x ∧ x ≠ []) → (∀ x ∈ l₂, '|' ∉ x ∧ x ≠ []) →
      charJoin l₁ = charJoin l₂ → l₁ = l₂ := by
  intro l₁
  induction l₁ with
  | nil =>
    intro l₂ _ h₂ heq
    cases l₂ with
    | nil => rfl
    | cons y ys =>
      cases ys with
      | nil =>
        exact absurd (heq.symm : charJoin [y] = charJoin []) (by
          simpa [charJoin] using (h₂ y (List.mem_cons_self y [])).2)
      | cons z zs =>
        simp only [charJoin] at heq
        exact absurd heq.symm (by simp)
  | cons x xs ih =>
    intro l₂ h₁ h₂ heq
    cases l₂ with
    | nil =>
      cases xs with
      | nil =>
        exact absurd (heq : charJoin [x] = charJoin []) (by
          simpa [charJoin] using (h₁ x (List.mem_cons_self x [])).2)
      | cons z zs =>
        simp only [charJoin] at heq
        exact absurd heq (by simp)
    | cons y ys =>
      cases xs with
      | nil =>
        cases ys with
        | nil => simpa [charJoin] using heq
        | cons z zs =>
          -- x = y ++ '|' :: _, impossible since x is bar-free
          simp only [charJoin] at heq
          have hbar : '|' ∈ x := by
            rw [heq]
            exact List.mem_append_right y (List.mem_cons_self _ _)
          exact absurd hbar (h₁ x (List.mem_cons_self x [])).1
      | cons a as =>
        cases ys with
        | nil =>
          simp only [charJoin] at heq
          have hbar : '|' ∈ y := by
            rw [← heq]
            exact List.mem_append_right x (List.mem_cons_self _ _)
          exact absurd hbar (h₂ y (List.mem_cons_self y [])).1
        | cons b bs =>
          simp only [charJoin] at heq
          obtain ⟨hx, ht⟩ :=
            noSep_split '|' x y (charJoin (a :: as)) (charJoin (b :: bs))
              (h₁ x (List.mem_cons_self x _)).1 (h₂ y (List.mem_cons_self y _)).1 heq
          have := ih (b :: bs)
            (fun z hz => h₁ z (List.mem_cons_of_mem x hz))
            (fun z hz => h₂ z (List.mem_cons_of_mem y hz)) ht
          rw [hx, this]

/-- Messages with colon-free roles are recoverable from their formatted parts. -/
theorem enc_inj :
    ∀ w₁ w₂ : List Msg,
      (∀ m ∈ w₁, ':' ∉ m.role.data) → (∀ m ∈ w₂, ':' ∉ m.role.data) →
      w₁.map (fun m => m.role.data ++ ':' :: m.content.data)
        = w₂.map (fun m => m.role.data ++ ':' :: m.content.data) → w₁ = w₂ := by
  intro w₁
  induction w₁ with
  | nil =>
    intro w₂ _ _ heq
    cases w₂ with
    | nil => rfl
    | cons y ys => simp at heq
  | cons x xs ih =>
    intro w₂ h₁ h₂ heq
    cases w₂ with
    | nil => simp at heq
    | cons y ys =>
      simp only [List.map_cons, List.cons.injEq] at heq
      obtain ⟨hhead, htail⟩ := heq
      obtain ⟨hrole, hcontent⟩ :=
        noSep_split ':' x.role.data y.role.data x.content.data y.content.data
          (h₁ x (List.mem_cons_self x _)) (h₂ y (List.mem_cons_self y _)) hhead
      have hx : x = y := by
        cases x
        cases y
        simp only [Msg.mk.injEq]
        exact ⟨str_ext hrole, str_ext hcontent⟩
      rw [hx, ih ys (fun m hm => h₁ m (List.mem_cons_of_mem x hm))
        (fun m hm => h₂ m (List.mem_cons_of_mem y hm)) htail]

/-- C7, amended. As stated the claim is refuted by `C7_counterexample`; it holds
under the delimiter discipline the counterexample forces: when every turn in both
windows has a role free of `:` and `|` and a content free of `|`, equal derived keys
imply equal last-three-turns windows (equivalently, any difference in the windows
changes the key). -/
theorem C7_amended_injective_on_window (ms₁ ms₂ : List Msg)
    (h₁ : ∀ m ∈ windowOf ms₁, delimFreeMsg m)
    (h₂ : ∀ m ∈ windowOf ms₂, delimFreeMsg m)
    (hkey : generateKey ms₁ = generateKey ms₂) :
    windowOf ms₁ = windowOf ms₂ := by
  have hdata := congrArg String.data hkey
  unfold generateKey at hdata
  rw [joinBar_data, joinBar_data, List.map_map, List.map_map] at hdata
  have hparts :
      (windowOf ms₁).map (fun m => m.role.data ++ ':' :: m.content.data)
        = (windowOf ms₂).map (fun m => m.role.data ++ ':' :: m.content.data) := by
    have hrw : (String.data ∘ fmtMsg) = fun m : Msg => m.role.data ++ ':' :: m.content.data := by
      funext m
      exact fmtMsg_data m
    have h1' : ∀ x ∈ (windowOf ms₁).map (fun m : Msg => m.role.data ++ ':' :: m.content.data),
        '|' ∉ x ∧ x ≠ [] := by
      intro x hx
      obtain ⟨m, hm, rfl⟩ := List.mem_map.mp hx
      obtain ⟨_, hrb, hcb⟩ := h₁ m hm
      refine ⟨?_, by simp⟩
      intro hbar
      rcases List.mem_append.mp hbar with h | h
      · exact hrb h
      · rcases List.mem_cons.mp h with h | h
        · exact absurd h (by decide)
        · exact hcb h
    have h2' : ∀ x ∈ (windowOf ms₂).map (fun m : Msg => m.role.data ++ ':' :: m.content.data),
        '|' ∉ x ∧ x ≠ [] := by
      intro x hx
      obtain ⟨m, hm, rfl⟩ := List.mem_map.mp hx
      obtain ⟨_, hrb, hcb⟩ := h₂ m hm
      refine ⟨?_, by simp⟩
      intro hbar
      rcases List.mem_append.mp hbar with h | h
      · exact hrb h
      · rcases List.mem_cons.mp h with h | h
        · exact absurd h (by decide)
        · exact hcb h
    apply charJoin_inj _ _ h1' h2'
    rw [hrw] at hdata
    exact hdata
  exact enc_inj _ _ (fun m hm => (h₁ m hm).1) (fun m hm => (h₂ m hm).1) hparts

/-- Witness for the amended C7 at concrete delimiter-free inputs. -/
theorem C7_amended_witness :
    windowOf [⟨"user", "hello"⟩] = windowOf [⟨"user", "hello"⟩] :=
  C7_amended_injective_on_window [⟨"user", "hello"⟩] [⟨"user", "hello"⟩]
    (by decide) (by decide) rfl

theorem chain_nil {α : Type} (st : DL α) (prv cur : Option Nat) :
    chainFromB st prv cur [] = true ↔ cur = none := by
  simp [chainFromB]

theorem chain_cons {α : Type} (st : DL α) (prv cur : Option Nat) (i : Nat) (rest : List Nat) :
    chainFromB st prv cur (i :: rest) = true ↔
      cur = some i ∧ st.nodePrev i = prv ∧ chainFromB st (some i) (st.nodeNext i) rest = true := by
  simp [chainFromB, Bool.and_eq_true, decide_eq_true_eq, and_assoc]

theorem chain_append_elim {α : Type} (st : DL α) :
    ∀ (xs : List Nat) (prv cur : Option Nat) (ys : List Nat),
      chainFromB st prv cur (xs ++ ys) = true →
      ∃ p c, Seg st prv cur xs p c ∧ chainFromB st p c ys = true := by
  intro xs
  induction xs with
  | nil =>
    intro prv cur ys h
    exact ⟨prv, cur, ⟨rfl, rfl⟩, h⟩
  | cons x xs' ih =>
    intro prv cur ys h
    rw [List.cons_append, chain_cons] at h
    obtain ⟨hc, hp, hrest⟩ := h
    obtain ⟨p, c, hseg, hchain⟩ := ih (some x) (st.nodeNext x) ys hrest
    exact ⟨p, c, ⟨hc, hp, hseg⟩, hchain⟩

theorem chain_append_intro {α : Type} (st : DL α) :
    ∀ (xs : List Nat) (prv cur p c : Option Nat) (ys : List Nat),
      Seg st prv cur xs p c → chainFromB st p c ys = true →
      chainFromB st prv cur (xs ++ ys) = true := by
  intro xs
  induction xs with
  | nil =>
    intro prv cur p c ys hseg hchain
    obtain ⟨hp, hc⟩ := hseg
    rw [List.nil_append]
    rw [hp, hc] at hchain
    exact hchain
  | cons x xs' ih =>
    intro prv cur p c ys hseg hchain
    obtain ⟨hc, hp, hrest⟩ := hseg
    rw [List.cons_append, chain_cons]
    exact ⟨hc, hp, ih (some x) (st.nodeNext x) p c ys hrest hchain⟩

theorem seg_congr {α : Type} (st st' : DL α) :
    ∀ (xs : List Nat) (prv cur p c : Option Nat),
      (∀ j ∈ xs, st'.nodePrev j = st.nodePrev j ∧ st'.nodeNext j = st.nodeNext j) →
      Seg st prv cur xs p c → Seg st' prv cur xs p c := by
  intro xs
  induction xs with
  | nil =>
    intro prv cur p c _ hseg
    exact hseg
  | cons x xs' ih =>
    intro prv cur p c hr hseg
    obtain ⟨hc, hp, hrest⟩ := hseg
    refine ⟨hc, ?_, ?_⟩
    · rw [(hr x (List.mem_cons_self x xs')).1]
      exact hp
    · rw [(hr x (List.mem_cons_self x xs')).2]
      exact ih (some x) (st.nodeNext x) p c (fun j hj => hr j (List.mem_cons_of_mem x hj)) hrest

theorem chain_congr {α : Type} (st st' : DL α) :
    ∀ (xs : List Nat) (prv cur : Option Nat),
      (∀ j ∈ xs, st'.nodePrev j = st.nodePrev j ∧ st'.nodeNext j = st.nodeNext j) →
      chainFromB st prv cur xs = true → chainFromB st' prv cur xs = true := by
  intro xs
  induction xs with
  | nil =>
    intro prv cur _ h
    exact h
  | cons x xs' ih =>
    intro prv cur hr h
    rw [chain_cons] at h ⊢
    obtain ⟨hc, hp, hrest⟩ := h
    refine ⟨hc, ?_, ?_⟩
    · rw [(hr x (List.mem_cons_self x xs')).1]
      exact hp
    · rw [(hr x (List.mem_cons_self x xs')).2]
      exact ih (some x) (st.nodeNext x) (fun j hj => hr j (List.mem_cons_of_mem x hj)) hrest

theorem seg_last_facts {α : Type} (st : DL α) (xs : List Nat) (t : Nat)
    (prv cur p c : Option Nat) (h : Seg st prv cur (xs ++ [t]) p c) :
    p = some t ∧ c = st.nodeNext t := by
  induction xs generalizing prv cur with
  | nil =>
    obtain ⟨_, _, hp, hc⟩ := h
    exact ⟨hp, hc⟩
  | cons x xs' ih =>
    obtain ⟨_, _, hrest⟩ := h
    exact ih (some x) (st.nodeNext x) hrest

/-! Heap read/write lemmas for the `DL` pointer fields. -/
theorem DL.head_setNext {α : Type} (st : DL α) (j : Nat) (x : Option Nat) :
    (st.setNext j x).head = st.head := by
  unfold DL.setNext
  cases mget st.nodes j <;> rfl

theorem DL.tail_setNext {α : Type} (st : DL α) (j : Nat) (x : Option Nat) :
    (st.setNext j x).tail = st.tail := by
  unfold DL.setNext
  cases mget st.nodes j <;> rfl

theorem DL.cache_setNext {α : Type} (st : DL α) (j : Nat) (x : Option Nat) :
    (st.setNext j x).cache = st.cache := by
  unfold DL.setNext
  cases mget st.nodes j <;> rfl

theorem DL.head_setPrev {α : Type} (st : DL α) (j : Nat) (x : Option Nat) :
    (st.setPrev j x).head = st.head := by
  unfold DL.setPrev
  cases mget st.nodes j <;> rfl

theorem DL.tail_setPrev {α : Type} (st : DL α) (j : Nat) (x : Option Nat) :
    (st.setPrev j x).tail = st.tail := by
  unfold DL.setPrev
  cases mget st.nodes j <;> rfl

theorem DL.cache_setPrev {α : Type} (st : DL α) (j : Nat) (x : Option Nat) :
    (st.setPrev j x).cache = st.cache := by
  unfold DL.setPrev
  cases mget st.nodes j <;> rfl

theorem DL.node_setNext_ne {α : Type} (st : DL α) (i j : Nat) (x : Option Nat) (h : i ≠ j) :
    (st.setNext j x).node i = st.node i := by
  unfold DL.setNext DL.node
  cases hj : mget st.nodes j with
  | none => rfl
  | some n => simpa using mget_mset_ne st.nodes j i _ h

theorem DL.node_setPrev_ne {α : Type} (st : DL α) (i j : Nat) (x : Option Nat) (h : i ≠ j) :
    (st.setPrev j x).node i = st.node i := by
  unfold DL.setPrev DL.node
  cases hj : mget st.nodes j with
  | none => rfl
  | some n => simpa using mget_mset_ne st.nodes j i _ h

theorem DL.nodePrev_setNext {α : Type} (st : DL α) (i j : Nat) (x : Option Nat) :
    (st.setNext j x).nodePrev i = st.nodePrev i := by
  by_cases hij : i = j
  · subst hij
    unfold DL.setNext DL.nodePrev DL.node
    cases hj : mget st.nodes i with
    | none => simp [hj]
    | some n => simp [hj, mget_mset_self]
  · unfold DL.nodePrev
    rw [DL.node_setNext_ne st i j x hij]

theorem DL.nodeNext_setPrev {α : Type} (st : DL α) (i j : Nat) (x : Option Nat) :
    (st.setPrev j x).nodeNext i = st.nodeNext i := by
  by_cases hij : i = j
  · subst hij
    unfold DL.setPrev DL.nodeNext DL.node
    cases hj : mget st.nodes i with
    | none => simp [hj]
    | some n => simp [hj, mget_mset_self]
  · unfold DL.nodeNext
    rw [DL.node_setPrev_ne st i j x hij]

theorem DL.nodeNext_setNext_self {α : Type} (st : DL α) (j : Nat) (x : Option Nat)
    (h : st.node j ≠ none) : (st.setNext j x).nodeNext j = x := by
  unfold DL.setNext DL.nodeNext DL.node
  cases hj : mget st.nodes j with
  | none => exact absurd (by unfold DL.node; rw [hj]) h
  | some n => simp [hj, mget_mset_self]

theorem DL.nodeNext_setNext_ne {α : Type} (st : DL α) (i j : Nat) (x : Option Nat) (h : i ≠ j) :
    (st.setNext j x).nodeNext i = st.nodeNext i := by
  unfold DL.nodeNext
  rw [DL.node_setNext_ne st i j x h]

theorem DL.nodePrev_setPrev_self {α : Type} (st : DL α) (j : Nat) (x : Option Nat)
    (h : st.node j ≠ none) : (st.setPrev j x).nodePrev j = x := by
  unfold DL.setPrev DL.nodePrev DL.node
  cases hj : mget st.nodes j with
  | none => exact absurd (by unfold DL.node; rw [hj]) h
  | some n => simp [hj, mget_mset_self]

theorem DL.nodePrev_setPrev_ne {α : Type} (st : DL α) (i j : Nat) (x : Option Nat) (h : i ≠ j) :
    (st.setPrev j x).nodePrev i = st.nodePrev i := by
  unfold DL.nodePrev
  rw [DL.node_setPrev_ne st i j x h]

theorem DL.node_ne_none_of_nodeNext {α : Type} (st : DL α) (i : Nat) (j : Nat)
    (h : st.nodeNext i = some j) : st.node i ≠ none := by
  intro hn
  rw [DL.nodeNext, hn] at h
  exact Option.noConfusion h

theorem DL.node_ne_none_of_nodePrev {α : Type} (st : DL α) (i : Nat) (j : Nat)
    (h : st.nodePrev i = some j) : st.node i ≠ none := by
  intro hn
  rw [DL.nodePrev, hn] at h
  exact Option.noConfusion h

/-- Pointer reads are insensitive to the fields of the state other than `nodes`. -/
theorem chain_nodes_congr {α : Type} (st st' : DL α) (h : st'.nodes = st.nodes) :
    ∀ (xs : List Nat) (prv cur : Option Nat),
      chainFromB st prv cur xs = true → chainFromB st' prv cur xs = true := by
  intro xs prv cur hc
  refine chain_congr st st' xs prv cur (fun j _ => ⟨?_, ?_⟩) hc
  · unfold DL.nodePrev DL.node
    rw [h]
  · unfold DL.nodeNext DL.node
    rw [h]

theorem seg_append_elim {α : Type} (st : DL α) :
    ∀ (xs ys : List Nat) (prv cur p c : Option Nat),
      Seg st prv cur (xs ++ ys) p c →
      ∃ p' c', Seg st prv cur xs p' c' ∧ Seg st p' c' ys p c := by
  intro xs
  induction xs with
  | nil =>
    intro ys prv cur p c h
    exact ⟨prv, cur, ⟨rfl, rfl⟩, h⟩
  | cons x xs' ih =>
    intro ys prv cur p c h
    obtain ⟨hc, hp, hrest⟩ := h
    obtain ⟨p', c', hseg, hseg'⟩ := ih ys (some x) (st.nodeNext x) p c hrest
    exact ⟨p', c', ⟨hc, hp, hseg⟩, hseg'⟩

theorem erase_append_not_mem {β : Type} [DecidableEq β] :
    ∀ (L : List β) (i : β) (R : List β), i ∉ L → (L ++ i :: R).erase i = L ++ R := by
  intro L
  induction L with
  | nil =>
    intro i R _
    simp
  | cons a L' ih =>
    intro i R h
    have hai : a ≠ i := fun hh => h (hh ▸ List.mem_cons_self a L')
    have : ((a :: L') ++ i :: R).erase i = a :: ((L' ++ i :: R).erase i) := by
      rw [List.cons_append]
      exact List.erase_cons_tail (by simpa using hai)
    rw [this, ih i R (fun hm => h (List.mem_cons_of_mem a hm))]
    rfl

/-- The central structural lemma for C3: `_removeNode` removes exactly its argument
from the observable recency chain and leaves the chain of the remaining nodes
intact (even in the degenerate single-node case, where the source leaves the `tail`
pointer dangling but the forward chain of the remaining — zero — nodes is still
correct). -/
theorem chain_removeNode {α : Type} (st : DL α) (order : List Nat) (i : Nat)
    (horder : chainFromB st none st.head order = true)
    (htail : st.tail = order.getLast?)
    (hnodup : order.Nodup)
    (hi : i ∈ order) :
    chainFromB (st.removeNode i) none (st.removeNode i).head (order.erase i) = true := by
  obtain ⟨L, R, rfl⟩ := List.append_of_mem hi
  have hnd := hnodup
  rw [List.nodup_append] at hnd
  obtain ⟨hndL, hndiR, hdisj⟩ := hnd
  have hiL : i ∉ L := fun hm => hdisj hm (List.mem_cons_self i R)
  have hiR : i ∉ R := (List.nodup_cons.mp hndiR).1
  have hndR : R.Nodup := (List.nodup_cons.mp hndiR).2
  rw [erase_append_not_mem L i R hiL]
  obtain ⟨p, c, hsegL, hchainIR⟩ := chain_append_elim st L none st.head (i :: R) horder
  rw [chain_cons] at hchainIR
  obtain ⟨hc, hpi, hchainR⟩ := hchainIR
  by_cases hhead : st.head = some i
  · -- the node is at the head of the list
    have hLnil : L = [] := by
      cases L with
      | nil => rfl
      | cons l₀ L' =>
        obtain ⟨hc₀, _, _⟩ := hsegL
        rw [hhead] at hc₀
        have : i = l₀ := by injection hc₀
        exact absurd (this ▸ List.mem_cons_self l₀ L' : i ∈ l₀ :: L') hiL
    subst hLnil
    cases hnexti : st.nodeNext i with
    | none =>
      -- removing the only node: head becomes null (and the tail dangles)
      have hRnil : R = [] := by
        cases R with
        | nil => rfl
        | cons r₀ R' =>
          rw [hnexti, chain_cons] at hchainR
          exact absurd hchainR.1 (by simp)
      subst hRnil
      have hr : st.removeNode i = { st with head := none } := by
        unfold DL.removeNode
        rw [if_pos hhead]
        simp only [hnexti]
      rw [hr]
      simp [chain_nil]
    | some h =>
      -- the successor becomes the head and loses its back pointer
      have hR : R = h :: R.tail ∧ st.nodePrev h = some i
          ∧ chainFromB st (some h) (st.nodeNext h) R.tail = true := by
        cases R with
        | nil =>
          rw [hnexti, chain_nil] at hchainR
          exact absurd hchainR (by simp)
        | cons r₀ R' =>
          rw [hnexti, chain_cons] at hchainR
          obtain ⟨hr₀, hpr, hcr⟩ := hchainR
          have : h = r₀ := by injection hr₀
          subst this
          exact ⟨rfl, hpr, hcr⟩
      obtain ⟨hRdec, hprevh, hchainT⟩ := hR
      have hnodeh : st.node h ≠ none := DL.node_ne_none_of_nodePrev st h i hprevh
      have hhne : h ≠ i := by
        intro hh
        subst hh
        exact absurd (hRdec ▸ List.mem_cons_self h R.tail : h ∈ R) hiR
      have hr : st.removeNode i = ({ st with head := some h } : DL α).setPrev h none := by
        unfold DL.removeNode
        rw [if_pos hhead]
        simp only [hnexti]
      rw [hr]
      set st1 : DL α := { st with head := some h } with hst1
      have hnodes1 : st1.nodes = st.nodes := rfl
      have hnodeh1 : st1.node h ≠ none := by
        unfold DL.node
        rw [hnodes1]
        exact hnodeh
      have hheadr : (st1.setPrev h none).head = st1.head := DL.head_setPrev st1 h none
      rw [hheadr]
      have hprev_same : ∀ j : Nat, st1.nodePrev j = st.nodePrev j := by
        intro j
        unfold DL.nodePrev DL.node
        rw [hnodes1]
      have hnext_same : ∀ j : Nat, st1.nodeNext j = st.nodeNext j := by
        intro j
        unfold DL.nodeNext DL.node
        rw [hnodes1]
      rw [List.nil_append, hRdec, chain_cons]
      refine ⟨rfl, ?_, ?_⟩
      · exact DL.nodePrev_setPrev_self st1 h none hnodeh1
      · rw [DL.nodeNext_setPrev st1 h h none, hnext_same h]
        have hhT : h ∉ R.tail := by
          rw [hRdec] at hndR
          exact (List.nodup_cons.mp hndR).1
        refine chain_congr st (st1.setPrev h none) R.tail (some h) (st.nodeNext h)
          (fun j hj => ?_) hchainT
        have hjh : j ≠ h := fun hh => hhT (hh ▸ hj)
        constructor
        · rw [DL.nodePrev_setPrev_ne st1 j h none hjh, hprev_same j]
        · rw [DL.nodeNext_setPrev st1 j h none, hnext_same j]
  · by_cases htailc : st.tail = some i
    · -- the node is at the tail (and not the head, so it has a predecessor)
      have hRnil : R = [] := by
        cases R with
        | nil => rfl
        | cons r₀ R' =>
          rw [htail, List.getLast?_append_cons, List.getLast?_cons_cons] at htailc
          have hmem : i ∈ r₀ :: R' := by
            exact List.mem_of_mem_getLast? (l := r₀ :: R') (a := i) (by
              rw [htailc]
              rfl)
          exact absurd hmem hiR
      subst hRnil
      have hLne : L ≠ [] := by
        intro hL
        subst hL
        obtain ⟨_, hc0⟩ := hsegL
        rw [hc0] at hc
        exact hhead hc
      rcases L.eq_nil_or_concat' with hL | ⟨Lf, t, rfl⟩
      · exact absurd hL hLne
      have hfacts := seg_last_facts st Lf t none st.head p c hsegL
      have hpt : st.nodePrev i = some t := by
        rw [hpi, hfacts.1]
      have hnt : st.nodeNext t = some i := by
        rw [← hfacts.2, hc]
      have hnodet : st.node t ≠ none := DL.node_ne_none_of_nodeNext st t i hnt
      have htLf : t ∉ Lf := by
        rw [List.nodup_append] at hndL
        exact fun hm => hndL.2.2 hm (List.mem_cons_self t [])
      have hr : st.removeNode i = ({ st with tail := some t } : DL α).setNext t none := by
        unfold DL.removeNode
        rw [if_neg hhead, if_pos htailc]
        simp only [hpt]
      rw [hr]
      set st1 : DL α := { st with tail := some t } with hst1
      have hnodes1 : st1.nodes = st.nodes := rfl
      have hprev_same : ∀ j : Nat, st1.nodePrev j = st.nodePrev j := by
        intro j
        unfold DL.nodePrev DL.node
        rw [hnodes1]
      have hnext_same : ∀ j : Nat, st1.nodeNext j = st.nodeNext j := by
        intro j
        unfold DL.nodeNext DL.node
        rw [hnodes1]
      have hnodet1 : st1.node t ≠ none := by
        unfold DL.node
        rw [hnodes1]
        exact hnodet
      have hheadr : (st1.setNext t none).head = st.head := DL.head_setNext st1 t none
      rw [hheadr, List.append_nil]
      obtain ⟨p', c', hsegLf, hsegT⟩ := seg_append_elim st Lf [t] none st.head p c hsegL
      obtain ⟨hc', hpt', _⟩ := hsegT
      refine chain_append_intro (st1.setNext t none) Lf none st.head p' c' [t] ?_ ?_
      · refine seg_congr st (st1.setNext t none) Lf none st.head p' c' (fun j hj => ?_) hsegLf
        have hjt : j ≠ t := fun hh => htLf (hh ▸ hj)
        constructor
        · rw [DL.nodePrev_setNext st1 j t none, hprev_same j]
        · rw [DL.nodeNext_setNext_ne st1 j t none hjt, hnext_same j]
      · rw [chain_cons]
        refine ⟨hc', ?_, ?_⟩
        · rw [DL.nodePrev_setNext st1 t t none, hprev_same t]
          exact hpt'
        · rw [DL.nodeNext_setNext_self st1 t none hnodet1, chain_nil]
    · -- the node is in the middle: it has both a predecessor and a successor
      have hRne : R ≠ [] := by
        intro hR
        subst hR
        rw [htail, List.getLast?_append_cons] at htailc
        exact htailc rfl
      cases R with
      | nil => exact absurd rfl hRne
      | cons n R' =>
        rw [chain_cons] at hchainR
        obtain ⟨hni, hpn, hchainR'⟩ := hchainR
        have hLne : L ≠ [] := by
          intro hL
          subst hL
          obtain ⟨_, hc0⟩ := hsegL
          rw [hc0] at hc
          exact hhead hc
        rcases L.eq_nil_or_concat' with hL | ⟨Lf, t, rfl⟩
        · exact absurd hL hLne
        have hfacts := seg_last_facts st Lf t none st.head p c hsegL
        have hpt : st.nodePrev i = some t := by
          rw [hpi, hfacts.1]
        have hnt : st.nodeNext t = some i := by
          rw [← hfacts.2, hc]
        have hnodet : st.node t ≠ none := DL.node_ne_none_of_nodeNext st t i hnt
        have hnoden : st.node n ≠ none := DL.node_ne_none_of_nodePrev st n i hpn
        have htmem : t ∈ Lf ++ [t] := List.mem_append_right Lf (List.mem_cons_self t [])
        have hti : t ≠ i := fun hh => hiL (hh ▸ htmem)
        have htn : t ≠ n := by
          intro hh
          refine hdisj htmem ?_
          rw [hh]
          exact List.mem_cons_of_mem i (List.mem_cons_self n R')
        have hni' : n ≠ i := by
          intro hh
          exact hiR (hh ▸ List.mem_cons_self n R')
        have htLf : t ∉ Lf := by
          rw [List.nodup_append] at hndL
          exact fun hm => hndL.2.2 hm (List.mem_cons_self t [])
        have hnLf : n ∉ Lf := by
          intro hm
          exact hdisj (List.mem_append_left [t] hm)
            (List.mem_cons_of_mem i (List.mem_cons_self n R'))
        have hnR' : n ∉ R' := (List.nodup_cons.mp hndR).1
        have htR' : t ∉ R' := by
          intro hm
          exact hdisj htmem (List.mem_cons_of_mem i (List.mem_cons_of_mem n hm))
        -- evaluate the two writes of the else branch
        have h1 : (st.setNext t (some n)).nodeNext i = some n := by
          rw [DL.nodeNext_setNext_ne st i t (some n) (Ne.symm hti)]
          exact hni
        have h2 : (st.setNext t (some n)).nodePrev i = some t := by
          rw [DL.nodePrev_setNext st i t (some n)]
          exact hpt
        have hr : st.removeNode i = ((st.setNext t (some n)).setPrev n (some t)) := by
          unfold DL.removeNode
          rw [if_neg hhead, if_neg htailc]
          simp only [hpt, hni, h1, h2]
        rw [hr]
        set stA : DL α := st.setNext t (some n) with hstA
        have hnodenA : stA.node n ≠ none := by
          rw [hstA, DL.node_setNext_ne st n t (some n) (fun hh => htn hh.symm)]
          exact hnoden
        have hheadr : ((stA.setPrev n (some t)).head) = st.head := by
          rw [DL.head_setPrev stA n (some t), hstA, DL.head_setNext st t (some n)]
        rw [hheadr]
        have hgoal_list : (Lf ++ [t]) ++ n :: R' = Lf ++ t :: n :: R' := by
          rw [List.append_assoc]
          rfl
        rw [hgoal_list]
        obtain ⟨p', c', hsegLf, hsegT⟩ := seg_append_elim st Lf [t] none st.head p c hsegL
        obtain ⟨hc', hpt', _⟩ := hsegT
        set r : DL α := stA.setPrev n (some t) with hrdef
        have hprev_r : ∀ j : Nat, j ≠ n → r.nodePrev j = st.nodePrev j := by
          intro j hjn
          rw [hrdef, DL.nodePrev_setPrev_ne stA j n (some t) hjn, hstA,
            DL.nodePrev_setNext st j t (some n)]
        have hnext_r : ∀ j : Nat, j ≠ t → r.nodeNext j = st.nodeNext j := by
          intro j hjt
          rw [hrdef, DL.nodeNext_setPrev stA j n (some t), hstA,
            DL.nodeNext_setNext_ne st j t (some n) hjt]
        refine chain_append_intro r Lf none st.head p' c' (t :: n :: R') ?_ ?_
        · refine seg_congr st r Lf none st.head p' c' (fun j hj => ?_) hsegLf
          have hjt : j ≠ t := fun hh => htLf (hh ▸ hj)
          have hjn : j ≠ n := fun hh => hnLf (hh ▸ hj)
          exact ⟨hprev_r j hjn, hnext_r j hjt⟩
        · rw [chain_cons]
          refine ⟨hc', ?_, ?_⟩
          · rw [hprev_r t htn]
            exact hpt'
          · have hnextt : r.nodeNext t = some n := by
              rw [hrdef, DL.nodeNext_setPrev stA t n (some t), hstA,
                DL.nodeNext_setNext_self st t (some n) hnodet]
            rw [hnextt, chain_cons]
            refine ⟨rfl, ?_, ?_⟩
            · rw [hrdef, DL.nodePrev_setPrev_self stA n (some t) hnodenA]
            · have hnextn : r.nodeNext n = st.nodeNext n := hnext_r n (Ne.symm htn)
              rw [hnextn]
              refine chain_congr st r R' (some n) (st.nodeNext n) (fun j hj => ?_) hchainR'
              have hjt : j ≠ t := fun hh => htR' (hh ▸ hj)
              have hjn : j ≠ n := fun hh => hnR' (hh ▸ hj)
              exact ⟨hprev_r j hjn, hnext_r j hjt⟩

/-! Observable-payload frame lemmas: pointer writes never change keys, values,
weights, the key map, or the weight counter. -/
theorem DL.lookup_setNext {α : Type} (st : DL α) (j : Nat) (x : Option Nat) (k : String) :
    (st.setNext j x).lookup k = st.lookup k := by
  unfold DL.lookup
  rw [DL.cache_setNext]
  cases hk : mget st.cache k with
  | none => rfl
  | some i =>
    by_cases hij : i = j
    · subst hij
      unfold DL.setNext DL.node
      cases hj : mget st.nodes i with
      | none => rfl
      | some n => simp [hj, mget_mset_self]
    · show (match (st.setNext j x).node i with
          | some n => some (n.value, n.weight)
          | none => none)
        = (match st.node i with
          | some n => some (n.value, n.weight)
          | none => none)
      rw [DL.node_setNext_ne st i j x hij]

theorem DL.lookup_setPrev {α : Type} (st : DL α) (j : Nat) (x : Option Nat) (k : String) :
    (st.setPrev j x).lookup k = st.lookup k := by
  unfold DL.lookup
  rw [DL.cache_setPrev]
  cases hk : mget st.cache k with
  | none => rfl
  | some i =>
    by_cases hij : i = j
    · subst hij
      unfold DL.setPrev DL.node
      cases hj : mget st.nodes i with
      | none => rfl
      | some n => simp [hj, mget_mset_self]
    · show (match (st.setPrev j x).node i with
          | some n => some (n.value, n.weight)
          | none => none)
        = (match st.node i with
          | some n => some (n.value, n.weight)
          | none => none)
      rw [DL.node_setPrev_ne st i j x hij]

theorem DL.cw_setNext {α : Type} (st : DL α) (j : Nat) (x : Option Nat) :
    (st.setNext j x).currentWeight = st.currentWeight := by
  unfold DL.setNext
  cases mget st.nodes j <;> rfl

theorem DL.cw_setPrev {α : Type} (st : DL α) (j : Nat) (x : Option Nat) :
    (st.setPrev j x).currentWeight = st.currentWeight := by
  unfold DL.setPrev
  cases mget st.nodes j <;> rfl

theorem DL.lookup_upd_head {α : Type} (st : DL α) (h : Option Nat) (k : String) :
    (({ st with head := h } : DL α)).lookup k = st.lookup k := rfl

theorem DL.lookup_upd_tail {α : Type} (st : DL α) (t : Option Nat) (k : String) :
    (({ st with tail := t } : DL α)).lookup k = st.lookup k := rfl

theorem DL.lookup_removeNode {α : Type} (st : DL α) (i : Nat) (k : String) :
    (st.removeNode i).lookup k = st.lookup k := by
  unfold DL.removeNode
  by_cases h1 : st.head = some i
  · rw [if_pos h1]
    dsimp only
    cases hx : st.nodeNext i with
    | none => rfl
    | some h => rw [DL.lookup_setPrev, DL.lookup_upd_head]
  · rw [if_neg h1]
    by_cases h2 : st.tail = some i
    · rw [if_pos h2]
      dsimp only
      cases hx : st.nodePrev i with
      | none => rfl
      | some t => rw [DL.lookup_setNext, DL.lookup_upd_tail]
    · rw [if_neg h2]
      dsimp only
      cases hx : st.nodePrev i with
      | none =>
        cases hy : st.nodeNext i with
        | none => rfl
        | some n => rw [DL.lookup_setPrev]
      | some p =>
        cases hy : (st.setNext p (st.nodeNext i)).nodeNext i with
        | none => rw [DL.lookup_setNext]
        | some n => rw [DL.lookup_setPrev, DL.lookup_setNext]

theorem DL.cache_upd_head {α : Type} (st : DL α) (h : Option Nat) :
    (({ st with head := h } : DL α)).cache = st.cache := rfl

theorem DL.cache_upd_tail {α : Type} (st : DL α) (t : Option Nat) :
    (({ st with tail := t } : DL α)).cache = st.cache := rfl

theorem DL.cache_removeNode {α : Type} (st : DL α) (i : Nat) :
    (st.removeNode i).cache = st.cache := by
  unfold DL.removeNode
  by_cases h1 : st.head = some i
  · rw [if_pos h1]
    dsimp only
    cases hx : st.nodeNext i with
    | none => rfl
    | some h => rw [DL.cache_setPrev, DL.cache_upd_head]
  · rw [if_neg h1]
    by_cases h2 : st.tail = some i
    · rw [if_pos h2]
      dsimp only
      cases hx : st.nodePrev i with
      | none => rfl
      | some t => rw [DL.cache_setNext, DL.cache_upd_tail]
    · rw [if_neg h2]
      dsimp only
      cases hx : st.nodePrev i with
      | none =>
        cases hy : st.nodeNext i with
        | none => rfl
        | some n => rw [DL.cache_setPrev]
      | some p =>
        cases hy : (st.setNext p (st.nodeNext i)).nodeNext i with
        | none => rw [DL.cache_setNext]
        | some n => rw [DL.cache_setPrev, DL.cache_setNext]

theorem DL.cw_removeNode {α : Type} (st : DL α) (i : Nat) :
    (st.removeNode i).currentWeight = st.currentWeight := by
  unfold DL.removeNode
  by_cases h1 : st.head = some i
  · rw [if_pos h1]
    dsimp only
    cases hx : st.nodeNext i with
    | none => rfl
    | some h => rw [DL.cw_setPrev]
  · rw [if_neg h1]
    by_cases h2 : st.tail = some i
    · rw [if_pos h2]
      dsimp only
      cases hx : st.nodePrev i with
      | none => rfl
      | some t => rw [DL.cw_setNext]
    · rw [if_neg h2]
      dsimp only
      cases hx : st.nodePrev i with
      | none =>
        cases hy : st.nodeNext i with
        | none => rfl
        | some n => rw [DL.cw_setPrev]
      | some p =>
        cases hy : (st.setNext p (st.nodeNext i)).nodeNext i with
        | none => rw [DL.cw_setNext]
        | some n => rw [DL.cw_setPrev, DL.cw_setNext]

theorem DL.nodes_upd_cw {α : Type} (st : DL α) (w : Int) :
    (({ st with currentWeight := w } : DL α)).nodes = st.nodes := rfl

theorem DL.head_removeNode_eq {α : Type} (st : DL α) (i : Nat) (h : ¬st.head = some i) :
    (st.removeNode i).head = st.head := by
  unfold DL.removeNode
  rw [if_neg h]
  by_cases h2 : st.tail = some i
  · rw [if_pos h2]
    dsimp only
    cases hx : st.nodePrev i with
    | none => rfl
    | some t => rw [DL.head_setNext]
  · rw [if_neg h2]
    dsimp only
    cases hx : st.nodePrev i with
    | none =>
      cases hy : st.nodeNext i with
      | none => rfl
      | some n => rw [DL.head_setPrev]
    | some p =>
      cases hy : (st.setNext p (st.nodeNext i)).nodeNext i with
      | none => rw [DL.head_setNext]
      | some n => rw [DL.head_setPrev, DL.head_setNext]

theorem DL.lookup_upd_cw {α : Type} (st : DL α) (w : Int) (k : String) :
    (({ st with currentWeight := w } : DL α)).lookup k = st.lookup k := rfl

/-! ## C3: oversized items are refused without collateral damage -/
/-- C3. In weight-bounded mode, `set(key, value)` with `weightFn(value) > maxWeight`
stores nothing (it is a silent no-op, modelled by total functions: no error is
raised), leaves every other entry — value, weight, and, in the timestamp
implementation, timestamp — unchanged, leaves the observable recency chain of the
remaining entries unchanged in the linked-list implementation, leaves `has key`
false afterwards, and when a same-keyed entry previously existed it is removed with
its weight deducted (`currentWeight` drops by exactly the old weight). The first
conjunct treats `src/lru-handler.js` on arbitrary map-shaped states, the second and
third treat `unnamed/part_002` (the third on list-shaped states, via `chainFromB`). -/
theorem C3_oversized_refusal :
    (∀ (α : Type) (cfg : Config α) (st : TS α) (k : String) (v : α),
        cfg.isWeightedMode = true → cfg.maxWeight < cfg.calculateItemWeight v →
        (st.cache.map Prod.fst).Nodup → (st.times.map Prod.fst).Nodup →
        (TS.set cfg st k v).has k = false
          ∧ (∀ k', k' ≠ k → mget (TS.set cfg st k v).cache k' = mget st.cache k'
              ∧ mget (TS.set cfg st k v).times k' = mget st.times k')
          ∧ (TS.set cfg st k v).currentWeight
              = st.currentWeight - (match mget st.cache k with
                  | some e => e.weight
                  | none => 0)
          ∧ (TS.set cfg st k v).clock = st.clock
          ∧ (mhas st.cache k = true → mget (TS.set cfg st k v).times k = none)
          ∧ (mhas st.cache k = false → TS.set cfg st k v = st))
      ∧ (∀ (α : Type) (cfg : Config α) (st : DL α) (k : String) (v : α),
          cfg.isWeightedMode = true → cfg.maxWeight < cfg.calculateItemWeight v →
          (st.cache.map Prod.fst).Nodup →
          (DL.set cfg st k v).has k = false
            ∧ (∀ k', k' ≠ k → (DL.set cfg st k v).lookup k' = st.lookup k')
            ∧ (DL.set cfg st k v).currentWeight
                = st.currentWeight - (match st.lookup k with
                    | some p => p.2
                    | none => 0)
            ∧ (mhas st.cache k = false → DL.set cfg st k v = st))
      ∧ (∀ (α : Type) (cfg : Config α) (st : DL α) (k : String) (v : α) (order : List Nat),
          cfg.isWeightedMode = true → cfg.maxWeight < cfg.calculateItemWeight v →
          chainFromB st none st.head order = true →
          st.tail = order.getLast? → order.Nodup →
          (∀ i, mget st.cache k = some i → i ∈ order) →
          chainFromB (DL.set cfg st k v) none (DL.set cfg st k v).head
            (match mget st.cache k with
              | some i => order.erase i
              | none => order) = true) := by
  refine ⟨?_, ?_, ?_⟩
  · -- src/lru-handler.js
    intro α cfg st k v hW hover hndc hndt
    have hset : TS.set cfg st k v = (match mget st.cache k with
        | some old => { st with currentWeight := st.currentWeight - old.weight, cache := mdel st.cache k, times := mdel st.times k }
        | none => st) := by
      unfold TS.set
      rw [hW]
      simp only [if_true, eq_self_iff_true, true_and]
      rw [if_pos hover]
    rw [hset]
    cases hk : mget st.cache k with
    | none =>
      dsimp only
      refine ⟨?_, fun k' _ => ⟨rfl, rfl⟩, by simp, rfl, ?_, fun _ => rfl⟩
      · show mhas st.cache k = false
        simp [mhas, hk]
      · intro hcontra
        simp [mhas, hk] at hcontra
    | some old =>
      dsimp only
      refine ⟨?_, ?_, rfl, rfl, ?_, ?_⟩
      · show (mget (mdel st.cache k) k).isSome = false
        rw [mget_mdel_self st.cache k hndc]
        rfl
      · intro k' hk'
        exact ⟨mget_mdel_ne st.cache k k' hk', mget_mdel_ne st.times k k' hk'⟩
      · intro _
        exact mget_mdel_self st.times k hndt
      · intro hcontra
        simp [mhas, hk] at hcontra
  · -- unnamed/part_002: map observables and weight accounting, arbitrary heap states
    intro α cfg st k v hW hover hndc
    have hset : DL.set cfg st k v = (if st.has k then st.removeItem true k else st) := by
      unfold DL.set
      rw [hW]
      simp only [if_true, eq_self_iff_true, true_and]
      rw [if_pos hover]
    rw [hset]
    cases hk : mget st.cache k with
    | none =>
      have hhas : st.has k = false := by
        unfold DL.has mhas
        rw [hk]
        rfl
      rw [hhas]
      simp only [if_neg (by simp : ¬(false = true))]
      refine ⟨hhas, fun k' _ => trivial, ?_, fun _ => trivial⟩
      have hlk : st.lookup k = none := by
        unfold DL.lookup
        rw [hk]
      rw [hlk]
      simp
    | some i =>
      have hhas : st.has k = true := by
        unfold DL.has mhas
        rw [hk]
        rfl
      rw [hhas, if_pos rfl]
      have hri : st.removeItem true k
          = (let st1 : DL α := if true = true ∧ ¬st.nodeWeight i = 0 then
              { st with currentWeight := st.currentWeight - st.nodeWeight i } else st
            let st2 := st1.removeNode i
            { st2 with cache := mdel st2.cache k }) := by
        unfold DL.removeItem
        rw [hk]
      rw [hri]
      dsimp only
      set st1 : DL α := if true = true ∧ ¬st.nodeWeight i = 0 then
          { st with currentWeight := st.currentWeight - st.nodeWeight i } else st with hst1
      have h1look : ∀ k', st1.lookup k' = st.lookup k' := by
        intro k'
        rw [hst1]
        split
        · rw [DL.lookup_upd_cw]
        · rfl
      have h1cache : st1.cache = st.cache := by
        rw [hst1]
        split <;> rfl
      refine ⟨?_, ?_, ?_, ?_⟩
      · unfold DL.has mhas
        show (mget (mdel (st1.removeNode i).cache k) k).isSome = false
        rw [DL.cache_removeNode, h1cache, mget_mdel_self st.cache k hndc]
        rfl
      · intro k' hk'
        have hstep : (({ st1.removeNode i with
            cache := mdel (st1.removeNode i).cache k } : DL α)).lookup k'
              = (st1.removeNode i).lookup k' := by
          show (match mget (mdel (st1.removeNode i).cache k) k' with
              | some j =>
                match (st1.removeNode i).node j with
                | some n => some (n.value, n.weight)
                | none => none
              | none => none)
            = (st1.removeNode i).lookup k'
          rw [mget_mdel_ne (st1.removeNode i).cache k k' hk']
          rfl
        rw [hstep, DL.lookup_removeNode, h1look]
      · show (st1.removeNode i).currentWeight = _
        rw [DL.cw_removeNode]
        have hlk : st.lookup k = (match st.node i with
            | some n => some (n.value, n.weight)
            | none => none) := by
          unfold DL.lookup
          rw [hk]
        rw [hlk]
        cases hni : st.node i with
        | none =>
          have hw0 : st.nodeWeight i = 0 := by
            unfold DL.nodeWeight
            rw [hni]
          rw [hst1]
          rw [if_neg (by simp [hw0])]
          simp
        | some n =>
          have hwn : st.nodeWeight i = n.weight := by
            unfold DL.nodeWeight
            rw [hni]
          by_cases hz : n.weight = 0
          · rw [hst1, if_neg (by simp [hwn, hz])]
            simp [hz]
          · rw [hst1, if_pos ⟨rfl, by rw [hwn]; exact hz⟩]
            rw [hwn]
      · intro hcontra
        unfold mhas at hcontra
        rw [hk] at hcontra
        exact absurd hcontra (by simp)
  · -- unnamed/part_002: the recency chain of the remaining entries
    intro α cfg st k v order hW hover horder htail hnodup hmem
    have hset : DL.set cfg st k v = (if st.has k then st.removeItem true k else st) := by
      unfold DL.set
      rw [hW]
      simp only [if_true, eq_self_iff_true, true_and]
      rw [if_pos hover]
    rw [hset]
    cases hk : mget st.cache k with
    | none =>
      have hhas : st.has k = false := by
        unfold DL.has mhas
        rw [hk]
        rfl
      rw [hhas]
      simp only [if_neg (by simp : ¬(false = true))]
      exact horder
    | some i =>
      have hhas : st.has k = true := by
        unfold DL.has mhas
        rw [hk]
        rfl
      rw [hhas, if_pos rfl]
      have hri : st.removeItem true k
          = (let st1 : DL α := if true = true ∧ ¬st.nodeWeight i = 0 then
              { st with currentWeight := st.currentWeight - st.nodeWeight i } else st
            let st2 := st1.removeNode i
            { st2 with cache := mdel st2.cache k }) := by
        unfold DL.removeItem
        rw [hk]
      rw [hri]
      dsimp only
      set st1 : DL α := if true = true ∧ ¬st.nodeWeight i = 0 then
          { st with currentWeight := st.currentWeight - st.nodeWeight i } else st with hst1
      have h1nodes : st1.nodes = st.nodes := by
        rw [hst1]
        split <;> rfl
      have h1head : st1.head = st.head := by
        rw [hst1]
        split <;> rfl
      have h1tail : st1.tail = st.tail := by
        rw [hst1]
        split <;> rfl
      have horder1 : chainFromB st1 none st1.head order = true := by
        rw [h1head]
        exact chain_nodes_congr st st1 h1nodes order none st.head horder
      have hchain2 := chain_removeNode st1 order i horder1
        (by rw [h1tail, htail]) hnodup (hmem i hk)
      have hfin : (({ st1.removeNode i with
          cache := mdel (st1.removeNode i).cache k } : DL α)).nodes
            = (st1.removeNode i).nodes := rfl
      refine chain_nodes_congr (st1.removeNode i) _ hfin (order.erase i) none _ ?_
      show chainFromB (st1.removeNode i) none (st1.removeNode i).head (order.erase i) = true
      exact hchain2

/-- Witness for C3 at a concrete weighted cache holding `"a"` (weight 3) and `"b"`
(weight 2), refusing an oversized update of `"a"`. -/
theorem C3_oversized_refusal_witness :
    (TS.set (wcfg 10) (TS.run (wcfg 10) TS.init [.set "a" "123", .set "b" "45"])
        "a" "12345678901").has "a" = false
      ∧ (DL.set (wcfg 10) (DL.run (wcfg 10) DL.init [.set "a" "123", .set "b" "45"])
        "a" "12345678901").has "a" = false
      ∧ chainFromB
          (DL.set (wcfg 10) (DL.run (wcfg 10) DL.init [.set "a" "123", .set "b" "45"])
            "a" "12345678901")
          none
          (DL.set (wcfg 10) (DL.run (wcfg 10) DL.init [.set "a" "123", .set "b" "45"])
            "a" "12345678901").head
          ([1, 0].erase 0) = true :=
  ⟨(C3_oversized_refusal.1 String (wcfg 10) _ "a" "12345678901" rfl (by decide)
      (by decide) (by decide)).1,
   (C3_oversized_refusal.2.1 String (wcfg 10) _ "a" "12345678901" rfl (by decide)
      (by decide)).1,
   by
    have := C3_oversized_refusal.2.2 String (wcfg 10)
      (DL.run (wcfg 10) DL.init [.set "a" "123", .set "b" "45"]) "a" "12345678901" [1, 0]
      rfl (by decide) (by decide) (by decide) (by decide) (by decide)
    rw [show mget (DL.run (wcfg 10) DL.init [.set "a" "123", .set "b" "45"]).cache "a"
        = some 0 from by decide] at this
    exact this⟩

/-! ## Supporting theorems

These are not claim theorems; they document which implementation upholds the
properties that the code-bug counterexamples above violate. -/

theorem DL.cache_addToFront {α : Type} (st : DL α) (i : Nat) :
    (st.addToFront i).cache = st.cache := by
  unfold DL.addToFront
  dsimp only
  repeat' split
  all_goals simp [DL.cache_setNext, DL.cache_setPrev]

theorem DL.cache_moveToFront {α : Type} (st : DL α) (i : Nat) :
    (st.moveToFront i).cache = st.cache := by
  unfold DL.moveToFront
  split
  · rfl
  · dsimp only
    repeat' split
    all_goals simp [DL.cache_setNext, DL.cache_setPrev]

/-- `unnamed/part_002` honours the C2 guarantee that `src/lru-handler.js` breaks:
a `set` whose item is not oversized always leaves the key resident, in both modes,
from every state. -/
theorem DL_set_resident {α : Type} (cfg : Config α) (st : DL α) (k : String) (v : α)
    (h : cfg.isWeightedMode = true → cfg.calculateItemWeight v ≤ cfg.maxWeight) :
    (DL.set cfg st k v).has k = true := by
  unfold DL.set
  have hov : ¬(cfg.isWeightedMode = true ∧ cfg.maxWeight <
      (if cfg.isWeightedMode = true then cfg.calculateItemWeight v else 0)) := by
    rintro ⟨hw, hlt⟩
    rw [if_pos hw] at hlt
    exact absurd (h hw) (not_le.mpr hlt)
  dsimp only
  rw [if_neg hov]
  cases hk : mget st.cache k with
  | some i =>
    dsimp only
    unfold DL.has mhas
    rw [DL.cache_moveToFront]
    split <;> cases hni : st.node i <;> dsimp only <;> rw [hk] <;> rfl
  | none =>
    dsimp only
    unfold DL.has mhas
    split <;> (try dsimp only) <;> (rw [DL.cache_addToFront]; dsimp only; rw [mget_mset_self]; rfl)

/-! Association-list bookkeeping lemmas for the weight invariant. -/

theorem mget_mem {κ α : Type} [DecidableEq κ] :
    ∀ (l : List (κ × α)) (k : κ) (v : α), mget l k = some v → (k, v) ∈ l := by
  intro l
  induction l with
  | nil => intro k v h; cases h
  | cons p rest ih =>
    intro k v h
    obtain ⟨k₀, v₀⟩ := p
    by_cases hk : k₀ = k
    · subst hk
      rw [mget, if_pos rfl] at h
      injection h with h
      subst h
      exact List.mem_cons_self _ _
    · rw [mget, if_neg hk] at h
      exact List.mem_cons_of_mem _ (ih k v h)

theorem mem_mdel_sub {κ α : Type} [DecidableEq κ] :
    ∀ (l : List (κ × α)) (k : κ) (p : κ × α), p ∈ mdel l k → p ∈ l := by
  intro l
  induction l with
  | nil => intro k p h; cases h
  | cons q rest ih =>
    intro k p h
    obtain ⟨k₀, v₀⟩ := q
    by_cases hk : k₀ = k
    · rw [mdel, if_pos hk] at h
      exact List.mem_cons_of_mem _ h
    · rw [mdel, if_neg hk] at h
      rcases List.mem_cons.mp h with h | h
      · exact h ▸ List.mem_cons_self _ _
      · exact List.mem_cons_of_mem _ (ih k p h)

theorem mem_mset_sub {κ α : Type} [DecidableEq κ] :
    ∀ (l : List (κ × α)) (k : κ) (v : α) (p : κ × α),
      p ∈ mset l k v → p ∈ l ∨ p = (k, v) := by
  intro l
  induction l with
  | nil =>
    intro k v p h
    rcases List.mem_cons.mp h with h | h
    · exact Or.inr h
    · cases h
  | cons q rest ih =>
    intro k v p h
    obtain ⟨k₀, v₀⟩ := q
    by_cases hk : k₀ = k
    · rw [mset, if_pos hk] at h
      rcases List.mem_cons.mp h with h | h
      · exact Or.inr (by rw [h, hk])
      · exact Or.inl (List.mem_cons_of_mem _ h)
    · rw [mset, if_neg hk] at h
      rcases List.mem_cons.mp h with h | h
      · exact Or.inl (h ▸ List.mem_cons_self _ _)
      · rcases ih k v p h with h | h
        · exact Or.inl (List.mem_cons_of_mem _ h)
        · exact Or.inr h

theorem keys_mdel_sub {κ α : Type} [DecidableEq κ] (l : List (κ × α)) (k a : κ)
    (h : a ∈ (mdel l k).map Prod.fst) : a ∈ l.map Prod.fst := by
  obtain ⟨p, hp, rfl⟩ := List.mem_map.mp h
  exact List.mem_map.mpr ⟨p, mem_mdel_sub l k p hp, rfl⟩

theorem nodup_mdel {κ α : Type} [DecidableEq κ] :
    ∀ (l : List (κ × α)) (k : κ), (l.map Prod.fst).Nodup → ((mdel l k).map Prod.fst).Nodup := by
  intro l
  induction l with
  | nil => intro k _; exact List.nodup_nil
  | cons p rest ih =>
    intro k h
    obtain ⟨k₀, v₀⟩ := p
    rw [List.map_cons, List.nodup_cons] at h
    by_cases hk : k₀ = k
    · rw [mdel, if_pos hk]
      exact h.2
    · rw [mdel, if_neg hk, List.map_cons, List.nodup_cons]
      exact ⟨fun hm => h.1 (keys_mdel_sub rest k k₀ hm), ih k h.2⟩

theorem nodup_mset_absent {κ α : Type} [DecidableEq κ] :
    ∀ (l : List (κ × α)) (k : κ) (v : α), mget l k = none → (l.map Prod.fst).Nodup →
      ((mset l k v).map Prod.fst).Nodup := by
  intro l
  induction l with
  | nil => intro k v _ _; simp [mset]
  | cons p rest ih =>
    intro k v habs h
    obtain ⟨k₀, v₀⟩ := p
    rw [List.map_cons, List.nodup_cons] at h
    by_cases hk : k₀ = k
    · rw [mget, if_pos hk] at habs
      cases habs
    · rw [mget, if_neg hk] at habs
      rw [mset, if_neg hk, List.map_cons, List.nodup_cons]
      refine ⟨fun hm => ?_, ih k v habs h.2⟩
      obtain ⟨p, hp, hfst⟩ := List.mem_map.mp hm
      rcases mem_mset_sub rest k v p hp with hmem | heq
      · exact h.1 (List.mem_map.mpr ⟨p, hmem, hfst⟩)
      · exact hk (by simpa using hfst.symm.trans (congrArg Prod.fst heq))

theorem mdel_of_none {κ α : Type} [DecidableEq κ] :
    ∀ (l : List (κ × α)) (k : κ), mget l k = none → mdel l k = l := by
  intro l
  induction l with
  | nil => intro k _; rfl
  | cons p rest ih =>
    intro k h
    obtain ⟨k₀, v₀⟩ := p
    by_cases hk : k₀ = k
    · rw [mget, if_pos hk] at h
      cases h
    · rw [mget, if_neg hk] at h
      rw [mdel, if_neg hk, ih k h]

theorem wsum_mdel {α : Type} :
    ∀ (l : List (String × TSEntry α)) (k : String) (e : TSEntry α), mget l k = some e →
      ((mdel l k).map (fun p => p.2.weight)).sum
        = (l.map (fun p => p.2.weight)).sum - e.weight := by
  intro l
  induction l with
  | nil => intro k e h; cases h
  | cons p rest ih =>
    intro k e h
    obtain ⟨k₀, e₀⟩ := p
    by_cases hk : k₀ = k
    · rw [mget, if_pos hk] at h
      injection h with h
      subst h
      rw [mdel, if_pos hk, List.map_cons, List.sum_cons]
      dsimp only
      omega
    · rw [mget, if_neg hk] at h
      rw [mdel, if_neg hk, List.map_cons, List.sum_cons, List.map_cons, List.sum_cons,
        ih k e h]
      omega

theorem wsum_mset_absent {α : Type} :
    ∀ (l : List (String × TSEntry α)) (k : String) (e : TSEntry α), mget l k = none →
      ((mset l k e).map (fun p => p.2.weight)).sum
        = (l.map (fun p => p.2.weight)).sum + e.weight := by
  intro l
  induction l with
  | nil =>
    intro k e _
    simp [mset]
  | cons p rest ih =>
    intro k e h
    obtain ⟨k₀, e₀⟩ := p
    by_cases hk : k₀ = k
    · rw [mget, if_pos hk] at h
      cases h
    · rw [mget, if_neg hk] at h
      rw [mset, if_neg hk, List.map_cons, List.sum_cons, List.map_cons, List.sum_cons,
        ih k e h]
      omega

/-! The `src/lru-handler.js` weighted cache maintains the C1 invariant that
`unnamed/part_002` breaks (`C1_part002_weight_bound_violated`). -/

theorem TS.evictOne_weightInv {α : Type} (mw : Int) (st : TS α)
    (h : TS.WeightInv mw st) :
    TS.WeightInv mw (st.evictOneLRU true).2
      ∧ (st.evictOneLRU true).2.currentWeight ≤ st.currentWeight
      ∧ ∀ k, mget st.cache k = none → mget (st.evictOneLRU true).2.cache k = none := by
  obtain ⟨hA, hB, hC, hD⟩ := h
  unfold TS.weightSum at hB
  unfold TS.evictOneLRU
  cases hold : st.getOldestKey with
  | none => exact ⟨⟨hA, hB, hC, hD⟩, le_refl _, fun k hk => hk⟩
  | some kk =>
    dsimp only
    by_cases hkk : kk ≠ ""
    · rw [if_pos hkk]
      cases hE : mget st.cache kk with
      | some e =>
        try dsimp only
        simp only [eq_self_iff_true, if_true]
        have hw : 0 ≤ e.weight := hD (kk, e) (mget_mem st.cache kk e hE)
        have hsum := wsum_mdel st.cache kk e hE
        refine ⟨⟨nodup_mdel st.cache kk hA, ?_, ?_, ?_⟩, ?_, ?_⟩
        · unfold TS.weightSum
          dsimp only
          omega
        · try dsimp only
          omega
        · intro p hp
          try dsimp only at hp
          exact hD p (mem_mdel_sub st.cache kk p hp)
        · try dsimp only
          omega
        · intro k hk
          try dsimp only
          by_cases hkkk : k = kk
          · subst hkkk
            exact mget_mdel_self st.cache k hA
          · rw [mget_mdel_ne st.cache kk k hkkk]
            exact hk
      | none =>
        dsimp only
        have hdel : mdel st.cache kk = st.cache := mdel_of_none st.cache kk hE
        refine ⟨⟨?_, ?_, ?_, ?_⟩, ?_, ?_⟩
        · try dsimp only
          rw [hdel]
          exact hA
        · unfold TS.weightSum
          dsimp only
          rw [hdel]
          omega
        · try dsimp only
          omega
        · intro p hp
          try dsimp only at hp
          rw [hdel] at hp
          exact hD p hp
        · try dsimp only
          omega
        · intro k hk
          try dsimp only
          rw [hdel]
          exact hk
    · rw [if_neg hkk]
      exact ⟨⟨hA, hB, hC, hD⟩, le_refl _, fun k hk => hk⟩

theorem TS.evictLoop_weightInv {α : Type} (mw iw : Int) :
    ∀ (fuel : Nat) (st : TS α), TS.WeightInv mw st →
      TS.WeightInv mw (TS.evictLoop mw iw fuel st)
        ∧ ∀ k, mget st.cache k = none →
            mget (TS.evictLoop mw iw fuel st).cache k = none := by
  intro fuel
  induction fuel with
  | zero => intro st h; exact ⟨h, fun k hk => hk⟩
  | succ n ih =>
    intro st h
    rw [TS.evictLoop]
    split
    · cases hE : st.evictOneLRU true with
      | mk b st' =>
        obtain ⟨h', _, habs⟩ := TS.evictOne_weightInv mw st h
        rw [hE] at h' habs
        cases b <;> dsimp only
        · exact ⟨h', habs⟩
        · obtain ⟨hrec, habs'⟩ := ih st' h'
          exact ⟨hrec, fun k hk => habs' k (habs k hk)⟩
    · exact ⟨h, fun k hk => hk⟩

theorem TS.set_weightInv {α : Type} (cfg : Config α) (st : TS α) (k : String) (v : α)
    (hW : cfg.isWeightedMode = true)
    (hwf : ∀ x, 0 ≤ cfg.calculateItemWeight x)
    (h : TS.WeightInv cfg.maxWeight st) :
    TS.WeightInv cfg.maxWeight (TS.set cfg st k v) := by
  obtain ⟨hA, hB, hC, hD⟩ := h
  unfold TS.weightSum at hB
  unfold TS.set
  rw [hW]
  simp only [if_true, eq_self_iff_true, true_and]
  by_cases hover : cfg.maxWeight < cfg.calculateItemWeight v
  · rw [if_pos hover]
    cases hk : mget st.cache k with
    | none => exact ⟨hA, hB, hC, hD⟩
    | some old =>
      dsimp only
      have hw : 0 ≤ old.weight := hD (k, old) (mget_mem st.cache k old hk)
      have hsum := wsum_mdel st.cache k old hk
      refine ⟨nodup_mdel st.cache k hA, ?_, ?_, ?_⟩
      · unfold TS.weightSum
        dsimp only
        omega
      · try dsimp only
        omega
      · intro p hp
        try dsimp only at hp
        exact hD p (mem_mdel_sub st.cache k p hp)
  · rw [if_neg hover]
    -- remove a pre-existing entry, evict to fit, then insert under the guard
    have hstep : ∀ st1 : TS α, TS.WeightInv cfg.maxWeight st1 → mget st1.cache k = none →
        TS.WeightInv cfg.maxWeight
          (if (TS.evictLoop cfg.maxWeight (cfg.calculateItemWeight v)
                (st1.times.length + 1) st1).currentWeight + cfg.calculateItemWeight v
              ≤ cfg.maxWeight then
            { TS.evictLoop cfg.maxWeight (cfg.calculateItemWeight v)
                (st1.times.length + 1) st1 with
              cache := mset (TS.evictLoop cfg.maxWeight (cfg.calculateItemWeight v)
                (st1.times.length + 1) st1).cache k ⟨v, cfg.calculateItemWeight v⟩,
              times := mset (TS.evictLoop cfg.maxWeight (cfg.calculateItemWeight v)
                (st1.times.length + 1) st1).times k
                (TS.evictLoop cfg.maxWeight (cfg.calculateItemWeight v)
                  (st1.times.length + 1) st1).clock,
              currentWeight := (TS.evictLoop cfg.maxWeight (cfg.calculateItemWeight v)
                (st1.times.length + 1) st1).currentWeight + cfg.calculateItemWeight v,
              clock := (TS.evictLoop cfg.maxWeight (cfg.calculateItemWeight v)
                (st1.times.length + 1) st1).clock + 1 }
          else TS.evictLoop cfg.maxWeight (cfg.calculateItemWeight v)
            (st1.times.length + 1) st1) := by
      intro st1 h1 habs1
      obtain ⟨h2, habs2⟩ := TS.evictLoop_weightInv cfg.maxWeight
        (cfg.calculateItemWeight v) (st1.times.length + 1) st1 h1
      set st2 := TS.evictLoop cfg.maxWeight (cfg.calculateItemWeight v)
        (st1.times.length + 1) st1 with hst2
      obtain ⟨h2A, h2B, h2C, h2D⟩ := h2
      unfold TS.weightSum at h2B
      have habs : mget st2.cache k = none := habs2 k habs1
      split
      · rename_i hguard
        refine ⟨nodup_mset_absent st2.cache k _ habs h2A, ?_, ?_, ?_⟩
        · unfold TS.weightSum
          dsimp only
          rw [wsum_mset_absent st2.cache k _ habs]
          dsimp only
          omega
        · try dsimp only
          exact hguard
        · intro p hp
          try dsimp only at hp
          rcases mem_mset_sub st2.cache k _ p hp with hmem | heq
          · exact h2D p hmem
          · rw [heq]
            exact hwf v
      · exact ⟨h2A, h2B, h2C, h2D⟩
    cases hk : mget st.cache k with
    | none =>
      exact hstep st ⟨hA, hB, hC, hD⟩ hk
    | some old =>
      dsimp only
      have hw : 0 ≤ old.weight := hD (k, old) (mget_mem st.cache k old hk)
      have hsum := wsum_mdel st.cache k old hk
      refine hstep ({ st with currentWeight := st.currentWeight - old.weight, cache := mdel st.cache k, times := mdel st.times k } : TS α) ⟨nodup_mdel st.cache k hA, ?_, ?_, ?_⟩ ?_
      · unfold TS.weightSum
        dsimp only
        omega
      · try dsimp only
        omega
      · intro p hp
        try dsimp only at hp
        exact hD p (mem_mdel_sub st.cache k p hp)
      · exact mget_mdel_self st.cache k hA

theorem TS.apply_weightInv {α : Type} (cfg : Config α) (st : TS α) (op : Op α)
    (hW : cfg.isWeightedMode = true)
    (hmw : 0 ≤ cfg.maxWeight)
    (hwf : ∀ x, 0 ≤ cfg.calculateItemWeight x)
    (h : TS.WeightInv cfg.maxWeight st) :
    TS.WeightInv cfg.maxWeight (TS.apply cfg st op) := by
  cases op with
  | set k v => exact TS.set_weightInv cfg st k v hW hwf h
  | get k =>
    have hcc : (st.get k).2.cache = st.cache
        ∧ (st.get k).2.currentWeight = st.currentWeight := by
      unfold TS.get
      split
      · cases mget st.cache k <;> exact ⟨rfl, rfl⟩
      · exact ⟨rfl, rfl⟩
    obtain ⟨hA, hB, hC, hD⟩ := h
    unfold TS.weightSum at hB
    show TS.WeightInv cfg.maxWeight (st.get k).2
    refine ⟨?_, ?_, ?_, ?_⟩
    · rw [hcc.1]
      exact hA
    · show (st.get k).2.currentWeight = ((st.get k).2.cache.map (fun p => p.2.weight)).sum
      rw [hcc.1, hcc.2]
      exact hB
    · rw [hcc.2]
      exact hC
    · intro p hp
      rw [hcc.1] at hp
      exact hD p hp
  | clear =>
    refine ⟨List.nodup_nil, rfl, hmw, ?_⟩
    intro p hp
    cases hp

/-- The C1 invariant holds for `src/lru-handler.js` in weight-bounded mode, from the
initial state, for every operation sequence: `currentWeight` always equals the sum
of the resident entries' weights and never exceeds `maxWeight`. This is the property
that `unnamed/part_002` violates at `C1_part002_weight_bound_violated`. -/
theorem TS_run_weight_invariant {α : Type} (cfg : Config α) (ops : List (Op α))
    (hW : cfg.isWeightedMode = true)
    (hmw : 0 < cfg.maxWeight)
    (hwf : ∀ x, 0 ≤ cfg.calculateItemWeight x) :
    (TS.run cfg TS.init ops).currentWeight = (TS.run cfg TS.init ops).weightSum
      ∧ (TS.run cfg TS.init ops).currentWeight ≤ cfg.maxWeight := by
  have hinit : TS.WeightInv cfg.maxWeight (TS.init : TS α) :=
    ⟨List.nodup_nil, rfl, le_of_lt hmw, fun p hp => by cases hp⟩
  have hrun : ∀ (l : List (Op α)) (st : TS α), TS.WeightInv cfg.maxWeight st →
      TS.WeightInv cfg.maxWeight (TS.run cfg st l) := by
    intro l
    induction l with
    | nil => intro st h; exact h
    | cons op rest ih =>
      intro st h
      exact ih (TS.apply cfg st op) (TS.apply_weightInv cfg st op hW (le_of_lt hmw) hwf h)
  obtain ⟨_, hB, hC, _⟩ := hrun ops TS.init hinit
  exact ⟨hB, hC⟩

end LruVerify
